import Mathlib

/-!
Shallow embedding of the boba-tvl repository core:
* `src/BlockFinder.js` — timestamp-to-block locator with a sorted block cache;
* the main script — adaptive range event fetcher, balance reconstruction,
  CoinGecko price lookup, interval seeding, total aggregation and TWAP.

JavaScript numbers used as balances/values/prices are modelled as rationals
(the script's arithmetic, read at spec level); block numbers and unix
timestamps are naturals; cumulative raw balances are integers (the script
uses big integers via `toBN`).  Asynchronous chain access is modelled by
threading the cache state explicitly and representing the chain node as a
pure function.  Code that can throw is modelled with `Option` (`none` =
exception propagates).
-/

/-- A chain block as consumed by `BlockFinder`: `{number, timestamp}`. -/
structure Block where
  number : Nat
  timestamp : Nat
deriving Repr, DecidableEq

/-- The chain node behind `requestBlock`: a total timestamp assignment for
block numbers plus the number of the current head block.  `requestBlock n`
returns `⟨n, ts n⟩` and `requestBlock "latest"` returns the head block. -/
structure Chain where
  ts : Nat → Nat
  headNum : Nat

/-- Lodash `sortedIndexBy(list, v, key)`: the lowest index at which a value
with key `v` can be inserted while keeping the list sorted; on a sorted list
this is the first index whose key is `≥ v`, which is what the linear scan
below computes. -/
def sortedIndexBy (key : Block → Nat) (v : Nat) : List Block → Nat
  | [] => 0
  | b :: bs => if v ≤ key b then 0 else sortedIndexBy key v bs + 1

/-- `BlockFinder.getBlock(number)`: return the cached block for this number
if present, otherwise fetch it from the chain and splice it into the cache
at its sorted position.  Returns the block together with the updated cache. -/
def getBlock (c : Chain) (n : Nat) (cache : List Block) : Block × List Block :=
  let i := sortedIndexBy Block.number n cache
  match cache[i]? with
  | some b =>
      if b.number = n then (b, cache)
      else (⟨n, c.ts n⟩, cache.insertIdx i ⟨n, c.ts n⟩)
  | none => (⟨n, c.ts n⟩, cache.insertIdx i ⟨n, c.ts n⟩)

/-- `BlockFinder.getLatestBlock()`: fetch the head block, splice it into the
cache unless a block with the same number is already there, and return the
cache entry at that position. -/
def getLatestBlock (c : Chain) (cache : List Block) : Block × List Block :=
  let blk : Block := ⟨c.headNum, c.ts c.headNum⟩
  let i := sortedIndexBy Block.number blk.number cache
  match cache[i]? with
  | some b =>
      if b.number = blk.number then (b, cache)
      else (blk, cache.insertIdx i blk)
  | none => (blk, cache.insertIdx i blk)

/-- `estimateBlocksElapsed(seconds, 1.1)` with the hard-coded mainnet average
block time of 13.5 seconds: `Math.floor(seconds * 1.1 / 13.5)`, written in
exact rational arithmetic as `⌊seconds * 11 / 135⌋`. -/
def estimateBlocksElapsed (seconds : Nat) : Nat :=
  seconds * 11 / 135

/-- The backward-walk loop of `getBlockForTimestamp`: starting from the
earliest cached block, fetch blocks `initialNumber - multiplier * inc`
(clamped at 0) for `multiplier = 1, 2, …` until one with timestamp `≤ T` is
found (success: return the updated cache), failing (`none`) if block 0 is
reached with a timestamp still above `T` (the JS `assert` throws).  The JS
loop is unbounded; `fuel` bounds the recursion and callers pass
`initialNumber + 1`, which is enough for every run the JS can complete. -/
def searchBack (c : Chain) (initialNumber inc T : Nat) :
    Nat → Nat → List Block → Option (List Block)
  | _, 0, _ => none
  | mult, fuel + 1, cache =>
      let blockNumber := initialNumber - mult * inc
      let r := getBlock c blockNumber cache
      if r.1.timestamp ≤ T then some r.2
      else if blockNumber = 0 then none
      else searchBack c initialNumber inc T (mult + 1) fuel r.2

/-- Lodash `clamp(x, lo, hi)`. -/
def jsClamp (x lo hi : Nat) : Nat := max lo (min x hi)

/-- `Math.round(p / q)` for nonnegative `p` and positive `q`, in exact
rational arithmetic: `⌊p/q + 1/2⌋`. -/
def jsRound (p q : Nat) : Nat := (2 * p + q) / (2 * q)

/-- `BlockFinder.findBlock(startBlock, endBlock, timestamp)`: recursive
interpolation search between two cached blocks.  `none` models the JS
exceptions (the two `assert`s, and the `TypeError` raised when the start
block is `undefined` and the equality shortcut does not fire).  The JS
recursion is unbounded; `fuel` bounds it and the caller passes
`endBlock.number + 1`, which dominates the bracket width and hence every
run the JS can complete. -/
def findBlock (c : Chain) (T : Nat) :
    Nat → Option Block → Block → List Block → Option (Block × List Block)
  | 0, _, _, _ => none
  | fuel + 1, startB?, endB, cache =>
      if endB.timestamp = T then some (endB, cache)
      else
        match startB? with
        | none => none
        | some startB =>
            if endB.number = startB.number + 1 then some (startB, cache)
            else if endB.number = startB.number then none
            else if startB.timestamp < T ∧ T < endB.timestamp then
              let estimatedBlock := startB.number +
                jsRound ((T - startB.timestamp) * (endB.number - startB.number))
                  (endB.timestamp - startB.timestamp)
              let target := jsClamp estimatedBlock (startB.number + 1) (endB.number - 1)
              let r := getBlock c target cache
              if r.1.timestamp < T then findBlock c T fuel (some r.1) endB r.2
              else findBlock c T fuel (some startB) r.1 r.2
            else none

/-- The final step of `getBlockForTimestamp`: locate the bracket via
`sortedIndexBy` on timestamps (`s?` is `this.blocks[index - 1]`, `undefined`
when the index is 0) and run `findBlock` on it.  `none` models the
exceptions the JS can throw on this path. -/
def locateInCache (c : Chain) (T : Nat) (cache2 : List Block) :
    Option (Block × List Block) :=
  let i := sortedIndexBy Block.timestamp T cache2
  let s? : Option Block := if i = 0 then none else cache2[i - 1]?
  match cache2[i]? with
  | none => none
  | some e => findBlock c T (e.number + 1) s? e cache2

/-- The backward-walk branch of `getBlockForTimestamp` followed by the
bracket search. -/
def getBlockForTimestampMain (c : Chain) (T : Nat) (cache : List Block) :
    Option (Block × List Block) :=
  match cache.head? with
  | none => none
  | some b0 =>
      if b0.timestamp > T then
        let inc := max (estimateBlocksElapsed (b0.timestamp - T)) 1
        match searchBack c b0.number inc T 1 (b0.number + 1) cache with
        | none => none
        | some cache2 => locateInCache c T cache2
      else locateInCache c T cache

/-- `BlockFinder.getBlockForTimestamp(timestamp)`: if the cache is empty or
its last entry is earlier than the target, fetch the head block and return
it directly when it already satisfies the target; otherwise locate the
target inside the (now populated) cache. -/
def getBlockForTimestamp (c : Chain) (T : Nat) (cache : List Block) :
    Option (Block × List Block) :=
  if cache.getLast?.all (fun b => b.timestamp < T) then
    let r := getLatestBlock c cache
    if T ≥ r.1.timestamp then some (r.1, r.2)
    else getBlockForTimestampMain c T r.2
  else getBlockForTimestampMain c T cache

/-- The cache order invariant: entries sorted strictly ascending by block
number (which also makes numbers unique). -/
def SortedByNumber (cache : List Block) : Prop :=
  cache.Pairwise (fun a b => a.number < b.number)

instance (cache : List Block) : Decidable (SortedByNumber cache) :=
  List.instDecidablePairwise cache

/-- Full reachable-state invariant of the locator cache: sorted strictly by
number, every entry consistent with the chain, and no entry beyond the head. -/
def CacheInv (c : Chain) (cache : List Block) : Prop :=
  SortedByNumber cache ∧
    ∀ b ∈ cache, b.timestamp = c.ts b.number ∧ b.number ≤ c.headNum

/-- Integers from `lo` to `hi` inclusive (empty when `hi < lo`); stands for
the events of the blocks in that inclusive range, one synthetic event per
block, identified by its block number. -/
def intRange (lo hi : Int) : List Int :=
  (List.range (hi + 1 - lo).toNat).map (fun i => lo + i)

/-- The chain node's `getPastEvents(eventName, {fromBlock, toBlock})` under
an injected fault pattern `failP`: the request throws exactly when
`failP lo hi` and otherwise returns one synthetic event per block of the
inclusive range. -/
def getPastEvents (failP : Int → Int → Bool) (lo hi : Int) : Option (List Int) :=
  if failP lo hi then none else some (intRange lo hi)

/-- The retry loop of `getRateLimitedEvents`: on failure halve the window
(floor, minimum 1) and retry the same start; on success append the events
and either advance the start by the window and double it, or stop.  The JS
loop is unbounded (it spins forever if the pattern keeps failing at window
size 1); `fuel` bounds the recursion, exhaustion returning `none`. -/
def grleLoop (failP : Int → Int → Bool) (toBlock : Int) :
    Nat → List Int → Int → Int → Option (List Int)
  | 0, _, _, _ => none
  | fuel + 1, events, lastBlock, blockRange =>
      match getPastEvents failP (lastBlock + 1) (min (lastBlock + blockRange) toBlock) with
      | none => grleLoop failP toBlock fuel events lastBlock (max (blockRange / 2) 1)
      | some newEvents =>
          if lastBlock + 1 + blockRange < toBlock then
            grleLoop failP toBlock fuel (events ++ newEvents) (lastBlock + blockRange)
              (blockRange * 2)
          else some (events ++ newEvents)

/-- `getRateLimitedEvents(contract, eventName, fromBlock, toBlock)`: start
with a window covering the whole range and run the adaptive loop. -/
def getRateLimitedEvents (failP : Int → Int → Bool) (fromBlock toBlock : Int)
    (fuel : Nat) : Option (List Int) :=
  grleLoop failP toBlock fuel [] (fromBlock - 1) (toBlock - (fromBlock - 1))

/-- A balance series entry as used by the seeding, pricing and TWAP code:
`timestamp` is `none` while unresolved (pre-range history); `tokenBalance`
is the scaled balance and `value` the fiat value. -/
structure Item where
  timestamp : Option Nat
  tokenBalance : Rat
  value : Rat
deriving Repr, DecidableEq

instance : Inhabited Item := ⟨⟨none, 0, 0⟩⟩

/-- Timestamps as the JS comparisons see them: an absent timestamp compares
below every number (`undefined > s` and `undefined >= s` are both false),
which is the `WithBot Nat` order. -/
def tsKey (it : Item) : WithBot Nat :=
  match it.timestamp with
  | none => ⊥
  | some t => (t : WithBot Nat)

/-- The filter of `calculateTwap`:
`balanceItem.timestamp && timestamp >= start && timestamp < end`.
JS truthiness makes both a missing timestamp and a timestamp of exactly 0
fail the first conjunct. -/
def twapSelect (s e : Nat) (it : Item) : Bool :=
  match it.timestamp with
  | none => false
  | some t => decide (t ≠ 0) && decide (s ≤ t) && decide (t < e)

/-- `selectedBalances` of `calculateTwap`. -/
def selectedBalances (l : List Item) (s e : Nat) : List Item :=
  l.filter (twapSelect s e)

/-- Timestamp of a selected sample as a rational (selected samples always
carry one; 0 is a dummy for the unreachable `none` case). -/
def tsQ (it : Item) : Rat :=
  ((it.timestamp.getD 0 : Nat) : Rat)

/-- The `forEach` accumulation of `calculateTwap`: each entry's value is
weighted by the time till the next entry's timestamp, the last entry by the
time till the window end. -/
def cumValue (e : Nat) : List Item → Rat
  | [] => 0
  | [x] => x.value * ((e : Rat) - tsQ x)
  | x :: y :: rest => x.value * (tsQ y - tsQ x) + cumValue e (y :: rest)

/-- `calculateTwap(tokenBalances, startTimestamp, endTimestamp)`. -/
def calculateTwap (l : List Item) (s e : Nat) : Rat :=
  cumValue e (selectedBalances l s e) / ((e : Rat) - (s : Rat))

/-- The spec's closed-form description of the same integration: the sum over
the selected samples of value times weight, the weight of entry `i` being
the time to the next entry's timestamp, except for the last entry, which is
weighted to the window end. -/
def specTwapSum (sel : List Item) (e : Nat) : Rat :=
  ∑ i ∈ Finset.range sel.length,
    (sel.getD i default).value *
      (if i + 1 = sel.length then (e : Rat) - tsQ (sel.getD i default)
       else tsQ (sel.getD (i + 1) default) - tsQ (sel.getD i default))

/-- Selection as claim C4 words it: samples whose timestamp is present and
lies in `[start, end)` (no truthiness exclusion of timestamp 0). -/
def claimSelect (s e : Nat) (it : Item) : Bool :=
  match it.timestamp with
  | none => false
  | some t => decide (s ≤ t) && decide (t < e)

/-- The TWAP that claim C4 describes, built from `claimSelect` and the
weighted sum; compared against `calculateTwap` below. -/
def claimTwap (l : List Item) (s e : Nat) : Rat :=
  specTwapSum (l.filter (claimSelect s e)) e / ((e : Rat) - (s : Rat))

/-- JS `Array.prototype.findIndex`, with `none` for -1. -/
def jsFindIndex (p : α → Bool) : List α → Option Nat
  | [] => none
  | x :: xs => if p x then some 0 else (jsFindIndex p xs).map (· + 1)

/-- A CoinGecko price point `[timestampMillis, price]`. -/
structure PricePoint where
  ms : Nat
  price : Rat
deriving Repr, DecidableEq

/-- `getCoingeckoPriceAt(tokenPrices, tokenAddress, timestamp)`: the last
available price at/before `t` (unix seconds, compared against `ms / 1000`
exactly as the JS division does); `none` models the throw when `t` predates
every price point (and the `TypeError` on an empty price list). -/
def getCoingeckoPriceAt (prices : List PricePoint) (t : Rat) : Option Rat :=
  match jsFindIndex (fun pp => decide ((pp.ms : Rat) / 1000 > t)) prices with
  | none => prices.getLast?.map PricePoint.price
  | some 0 => none
  | some (i + 1) => (prices[i]?).map PricePoint.price

/-- `addFirstBalance(tokenBalances, startTimestamp)`: ensure a sample exists
exactly at the interval start.  On an empty list the JS pushes an object
carrying only the timestamp (the other fields stay `undefined`); the model
materialises those absent fields as 0 — the pipeline never seeds an empty
series and every theorem below assumes nonemptiness. -/
def addFirstBalance (l : List Item) (s : Nat) : List Item :=
  match jsFindIndex (fun it => decide ((s : WithBot Nat) < tsKey it)) l with
  | none =>
      match l.getLast? with
      | some last => l ++ [{ last with timestamp := some s }]
      | none => l ++ [⟨some s, 0, 0⟩]
  | some 0 => ⟨some s, 0, 0⟩ :: l
  | some (i + 1) => l.insertIdx (i + 1) { l.getD i default with timestamp := some s }

/-- A decoded bridge transfer: asset identifier (assets are numbered),
signed amount (withdrawals already negated) and block number. -/
structure Txn where
  token : Nat
  netAmount : Int
  blockNumber : Nat
deriving Repr, DecidableEq

/-- A raw cumulative-balance sample before scaling and timestamping. -/
structure RawSample where
  blockNumber : Nat
  rawBalance : Int
deriving Repr, DecidableEq

/-- The balance-reconstruction fold of `main`: walk the sorted transactions;
per token append a sample whose `rawBalance` is the previous cumulative
balance plus the transaction's signed amount, starting a fresh series at a
token's first transaction. -/
def buildBalances (txns : List Txn) : Nat → List RawSample :=
  txns.foldl
    (fun bal t => fun tok =>
      if tok = t.token then
        match (bal t.token).getLast? with
        | some prev => bal t.token ++ [⟨t.blockNumber, prev.rawBalance + t.netAmount⟩]
        | none => [⟨t.blockNumber, t.netAmount⟩]
      else bal tok)
    (fun _ => [])

/-- One `combinedBalances` tuple of the total-aggregation stage. -/
structure CombEntry where
  token : Nat
  timestamp : Nat
  value : Rat
  previousValue : Rat
deriving Repr, DecidableEq

/-- The tuple-collection loop of the total-aggregation stage, for one asset:
emit a tuple for every sample whose timestamp is truthy and at/after the
range start; `previousValue` is the preceding sample's value when that
sample's timestamp is `≥ fromT` (an absent timestamp fails this JS
comparison), else 0.  `prev` carries the preceding sample of the walk. -/
def collectAsset (fromT : Nat) (tok : Nat) : Option Item → List Item → List CombEntry
  | _, [] => []
  | prev, it :: rest =>
      let tail := collectAsset fromT tok (some it) rest
      match it.timestamp with
      | none => tail
      | some t =>
          if t ≠ 0 ∧ fromT ≤ t then
            let pv : Rat :=
              match prev with
              | some p => if (fromT : WithBot Nat) ≤ tsKey p then p.value else 0
              | none => 0
            ⟨tok, t, it.value, pv⟩ :: tail
          else tail

/-- Collect the tuples of every asset, assets numbered by position. -/
def collectAll (fromT : Nat) : Nat → List (List Item) → List CombEntry
  | _, [] => []
  | tok, l :: ls => collectAsset fromT tok none l ++ collectAll fromT (tok + 1) ls

/-- Stable insertion step used to model lodash `sortBy` (a stable sort by
timestamp): an element is placed after every already-placed element whose
key is `≤` its own. -/
def stableInsert (x : CombEntry) : List CombEntry → List CombEntry
  | [] => [x]
  | y :: ys => if y.timestamp ≤ x.timestamp then y :: stableInsert x ys else x :: y :: ys

/-- Lodash `sortBy(combinedBalances, ["timestamp"])` as a stable insertion
sort (any two stable sorts of the same key agree). -/
def sortByTimestamp (l : List CombEntry) : List CombEntry :=
  l.foldl (fun acc x => stableInsert x acc) []

/-- An entry of the aggregated `balances["Total"]` series. -/
structure TotalEntry where
  timestamp : Nat
  value : Rat
deriving Repr, DecidableEq

/-- One step of the `balances["Total"]` fold: first tuple starts the series;
a later timestamp appends previous total plus the asset's delta; a repeated
timestamp adds the delta to the most recent entry in place. -/
def totalStep (acc : List TotalEntry) (t : CombEntry) : List TotalEntry :=
  match acc.getLast? with
  | none => [⟨t.timestamp, t.value⟩]
  | some last =>
      if last.timestamp < t.timestamp then
        acc ++ [⟨t.timestamp, last.value + t.value - t.previousValue⟩]
      else
        acc.dropLast ++ [⟨last.timestamp, last.value + t.value - t.previousValue⟩]

/-- The full total-aggregation stage: collect, stable-sort by timestamp,
fold into the `Total` series. -/
def totalSeries (fromT : Nat) (seriesList : List (List Item)) : List TotalEntry :=
  (sortByTimestamp (collectAll fromT 0 seriesList)).foldl totalStep []

/-- Latest value contributed by token `tok` among the given tuples (0 when
the token has not appeared yet).  Modelled from the spec: the naive
reference aggregate re-sums, at each timestamp, the latest value of every
asset seen so far, treating unseen assets as 0. -/
def latestValue (tok : Nat) (l : List CombEntry) : Rat :=
  match (l.filter (fun t => t.token == tok)).getLast? with
  | none => 0
  | some t => t.value

/-- The naive reference total over a tuple prefix: sum of every asset's
latest value. -/
def naiveTotal (numAssets : Nat) (l : List CombEntry) : Rat :=
  ∑ tok ∈ Finset.range numAssets, latestValue tok l

/-- Reference form of the per-token reconstruction: the running cumulative
sums of a token's transaction amounts, starting from `acc`. -/
def runningSamples : Int → List Txn → List RawSample
  | _, [] => []
  | acc, t :: rest => ⟨t.blockNumber, acc + t.netAmount⟩ :: runningSamples (acc + t.netAmount) rest

/-- Sum of the signed amounts of a transaction list. -/
def sumAmounts (l : List Txn) : Int :=
  (l.map (fun t => t.netAmount)).sum


/-- The delta-chaining property of a tuple stream restricted to one asset:
the first tuple's `previousValue` is the incoming value `pv0` and every
later tuple's `previousValue` is its predecessor's `value`. -/
def Chained : Rat → List CombEntry → Prop
  | _, [] => True
  | pv0, u :: rest => u.previousValue = pv0 ∧ Chained u.value rest

/-- The `previousValue` the collection loop will attach to the next emitted
tuple, as a function of the preceding sample. -/
def pvStart (fromT : Nat) : Option Item → Rat
  | some p => if (fromT : WithBot Nat) ≤ tsKey p then p.value else 0
  | none => 0


theorem getElem?_append_length (l1 l2 : List Block) : (l1 ++ l2)[l1.length]? = l2.head? := by
  rw [List.getElem?_append_right (Nat.le_refl _)]
  simp [List.head?_eq_getElem?]

/-- Splitting view of `sortedIndexBy` together with the effect of splicing at
the returned index: the list splits into a strict-lower-key prefix and a
remainder whose head (if any) has key `≥ v`. -/
theorem sortedIndexBy_decomp (key : Block → Nat) (v : Nat) (x : Block) :
    ∀ l : List Block, ∃ l1 l2 : List Block, l = l1 ++ l2 ∧
      sortedIndexBy key v l = l1.length ∧
      l.insertIdx (sortedIndexBy key v l) x = l1 ++ x :: l2 ∧
      (∀ b ∈ l1, key b < v) ∧ ∀ b ∈ l2.head?, v ≤ key b
  | [] => ⟨[], [], rfl, rfl, rfl, by simp, by simp⟩
  | b :: bs => by
      by_cases hb : v ≤ key b
      · refine ⟨[], b :: bs, rfl, by simp [sortedIndexBy, hb], by simp [sortedIndexBy, hb], by simp, ?_⟩
        intro a ha
        simp only [List.head?_cons, Option.mem_def, Option.some.injEq] at ha
        exact ha ▸ hb
      · obtain ⟨l1, l2, hsplit, hidx, hins, hlt, hhd⟩ := sortedIndexBy_decomp key v x bs
        refine ⟨b :: l1, l2, by simp [hsplit], by simp [sortedIndexBy, hb, hidx], ?_, ?_, hhd⟩
        · have : sortedIndexBy key v (b :: bs) = sortedIndexBy key v bs + 1 := by
            simp [sortedIndexBy, hb]
          rw [this, List.insertIdx_succ_cons, hins]
          simp
        · intro a ha
          rcases List.mem_cons.1 ha with rfl | ha
          · exact Nat.lt_of_not_le hb
          · exact hlt a ha

theorem sorted_insert_at_index (cache : List Block) (x : Block) (h : SortedByNumber cache)
    (hne : ∀ b ∈ cache[sortedIndexBy Block.number x.number cache]?, b.number ≠ x.number) :
    SortedByNumber (cache.insertIdx (sortedIndexBy Block.number x.number cache) x) := by
  obtain ⟨l1, l2, hsplit, hidx, hins, hlt, hhd⟩ :=
    sortedIndexBy_decomp Block.number x.number x cache
  rw [hins]
  have hget : cache[sortedIndexBy Block.number x.number cache]? = l2.head? := by
    rw [hidx, hsplit, getElem?_append_length]
  rw [hget] at hne
  rw [hsplit] at h
  rw [SortedByNumber, List.pairwise_append] at h
  obtain ⟨h1, h2, hc⟩ := h
  have hxl2 : ∀ b ∈ l2, x.number < b.number := by
    cases l2 with
    | nil => intro b hb; cases hb
    | cons hd tl =>
        intro b hb
        have hhdx : x.number < hd.number := by
          have h1 := hhd hd (by simp)
          have h2 := hne hd (by simp)
          omega
        rcases List.mem_cons.1 hb with rfl | hb
        · exact hhdx
        · exact Nat.lt_trans hhdx (List.rel_of_pairwise_cons h2 hb)
  rw [SortedByNumber, List.pairwise_append]
  refine ⟨h1, ?_, ?_⟩
  · exact List.pairwise_cons.2 ⟨hxl2, h2⟩
  · intro a ha b hb
    rcases List.mem_cons.1 hb with rfl | hb
    · exact hlt a ha
    · exact hc a ha b hb

theorem mem_insert_at_index (key : Block → Nat) (v : Nat) (cache : List Block) (x b : Block) :
    b ∈ cache.insertIdx (sortedIndexBy key v cache) x → b = x ∨ b ∈ cache := by
  obtain ⟨l1, l2, hsplit, hidx, hins, hlt, hhd⟩ := sortedIndexBy_decomp key v x cache
  rw [hins, hsplit]
  intro hb
  rcases List.mem_append.1 hb with hb | hb
  · exact Or.inr (List.mem_append.2 (Or.inl hb))
  · rcases List.mem_cons.1 hb with rfl | hb
    · exact Or.inl rfl
    · exact Or.inr (List.mem_append.2 (Or.inr hb))

theorem subset_insert_at_index (key : Block → Nat) (v : Nat) (cache : List Block) (x : Block) :
    cache ⊆ cache.insertIdx (sortedIndexBy key v cache) x := by
  obtain ⟨l1, l2, hsplit, hidx, hins, hlt, hhd⟩ := sortedIndexBy_decomp key v x cache
  rw [hins]
  intro b hb
  rw [hsplit] at hb
  rcases List.mem_append.1 hb with hb | hb
  · exact List.mem_append.2 (Or.inl hb)
  · exact List.mem_append.2 (Or.inr (List.mem_cons_of_mem x hb))

theorem mem_self_insert_at_index (key : Block → Nat) (v : Nat) (cache : List Block) (x : Block) :
    x ∈ cache.insertIdx (sortedIndexBy key v cache) x := by
  obtain ⟨l1, l2, hsplit, hidx, hins, hlt, hhd⟩ := sortedIndexBy_decomp key v x cache
  rw [hins]
  exact List.mem_append.2 (Or.inr (List.mem_cons_self x l2))

/-- `getBlock` keeps the cache sorted from any sorted state. -/
theorem getBlock_sorted (c : Chain) (n : Nat) (cache : List Block)
    (h : SortedByNumber cache) : SortedByNumber (getBlock c n cache).2 := by
  simp only [getBlock]
  split
  · rename_i b hb
    split
    · exact h
    · rename_i hbn
      refine sorted_insert_at_index cache ⟨n, c.ts n⟩ h ?_
      intro a ha
      simp only [hb, Option.mem_def, Option.some.injEq] at ha
      subst ha
      exact hbn
  · rename_i hb
    refine sorted_insert_at_index cache ⟨n, c.ts n⟩ h ?_
    intro a ha
    simp [hb] at ha

/-- `getLatestBlock` keeps the cache sorted from any sorted state. -/
theorem getLatestBlock_sorted (c : Chain) (cache : List Block)
    (h : SortedByNumber cache) : SortedByNumber (getLatestBlock c cache).2 := by
  simp only [getLatestBlock]
  split
  · rename_i b hb
    split
    · exact h
    · rename_i hbn
      refine sorted_insert_at_index cache ⟨c.headNum, c.ts c.headNum⟩ h ?_
      intro a ha
      simp only [hb, Option.mem_def, Option.some.injEq] at ha
      subst ha
      exact hbn
  · rename_i hb
    refine sorted_insert_at_index cache ⟨c.headNum, c.ts c.headNum⟩ h ?_
    intro a ha
    simp [hb] at ha

/-- Functional behaviour of `getBlock` from any invariant-satisfying state:
it returns exactly the chain's block for the requested number, preserves the
invariant, grows the cache and caches the returned block. -/
theorem getBlock_spec (c : Chain) (n : Nat) (cache : List Block)
    (hInv : CacheInv c cache) (hn : n ≤ c.headNum) :
    (getBlock c n cache).1 = ⟨n, c.ts n⟩ ∧ CacheInv c (getBlock c n cache).2 ∧
      cache ⊆ (getBlock c n cache).2 ∧ (⟨n, c.ts n⟩ : Block) ∈ (getBlock c n cache).2 := by
  obtain ⟨hsort, hmem⟩ := hInv
  simp only [getBlock]
  split
  · rename_i b hb
    have hbmem : b ∈ cache := List.getElem?_mem hb
    split
    · rename_i hbn
      have hts := (hmem b hbmem).1
      have hbeq : b = ⟨n, c.ts n⟩ := by
        cases b
        simp only at hbn hts
        subst hbn
        simp [hts]
      exact ⟨hbeq, ⟨hsort, hmem⟩, fun a ha => ha, hbeq ▸ hbmem⟩
    · rename_i hbn
      refine ⟨rfl, ⟨?_, ?_⟩, ?_, ?_⟩
      · refine sorted_insert_at_index cache ⟨n, c.ts n⟩ hsort ?_
        intro a ha
        simp only [hb, Option.mem_def, Option.some.injEq] at ha
        subst ha
        exact hbn
      · intro a ha
        rcases mem_insert_at_index Block.number n cache ⟨n, c.ts n⟩ a ha with rfl | ha
        · exact ⟨rfl, hn⟩
        · exact hmem a ha
      · exact subset_insert_at_index Block.number n cache ⟨n, c.ts n⟩
      · exact mem_self_insert_at_index Block.number n cache ⟨n, c.ts n⟩
  · rename_i hb
    refine ⟨rfl, ⟨?_, ?_⟩, ?_, ?_⟩
    · refine sorted_insert_at_index cache ⟨n, c.ts n⟩ hsort ?_
      intro a ha
      simp [hb] at ha
    · intro a ha
      rcases mem_insert_at_index Block.number n cache ⟨n, c.ts n⟩ a ha with rfl | ha
      · exact ⟨rfl, hn⟩
      · exact hmem a ha
    · exact subset_insert_at_index Block.number n cache ⟨n, c.ts n⟩
    · exact mem_self_insert_at_index Block.number n cache ⟨n, c.ts n⟩

/-- Functional behaviour of `getLatestBlock` from any invariant-satisfying
state: it returns the chain head, preserves the invariant, grows the cache
and caches the head. -/
theorem getLatestBlock_spec (c : Chain) (cache : List Block) (hInv : CacheInv c cache) :
    (getLatestBlock c cache).1 = ⟨c.headNum, c.ts c.headNum⟩ ∧
      CacheInv c (getLatestBlock c cache).2 ∧ cache ⊆ (getLatestBlock c cache).2 ∧
      (⟨c.headNum, c.ts c.headNum⟩ : Block) ∈ (getLatestBlock c cache).2 := by
  obtain ⟨hsort, hmem⟩ := hInv
  simp only [getLatestBlock]
  split
  · rename_i b hb
    have hbmem : b ∈ cache := List.getElem?_mem hb
    split
    · rename_i hbn
      have hts := (hmem b hbmem).1
      have hbeq : b = ⟨c.headNum, c.ts c.headNum⟩ := by
        cases b
        simp only at hbn hts
        subst hbn
        simp [hts]
      exact ⟨hbeq, ⟨hsort, hmem⟩, fun a ha => ha, hbeq ▸ hbmem⟩
    · rename_i hbn
      refine ⟨rfl, ⟨?_, ?_⟩, ?_, ?_⟩
      · refine sorted_insert_at_index cache ⟨c.headNum, c.ts c.headNum⟩ hsort ?_
        intro a ha
        simp only [hb, Option.mem_def, Option.some.injEq] at ha
        subst ha
        exact hbn
      · intro a ha
        rcases mem_insert_at_index Block.number c.headNum cache ⟨c.headNum, c.ts c.headNum⟩ a ha
          with rfl | ha
        · exact ⟨rfl, Nat.le_refl _⟩
        · exact hmem a ha
      · exact subset_insert_at_index Block.number c.headNum cache _
      · exact mem_self_insert_at_index Block.number c.headNum cache _
  · rename_i hb
    refine ⟨rfl, ⟨?_, ?_⟩, ?_, ?_⟩
    · refine sorted_insert_at_index cache ⟨c.headNum, c.ts c.headNum⟩ hsort ?_
      intro a ha
      simp [hb] at ha
    · intro a ha
      rcases mem_insert_at_index Block.number c.headNum cache ⟨c.headNum, c.ts c.headNum⟩ a ha
        with rfl | ha
      · exact ⟨rfl, Nat.le_refl _⟩
      · exact hmem a ha
    · exact subset_insert_at_index Block.number c.headNum cache _
    · exact mem_self_insert_at_index Block.number c.headNum cache _

/-- `searchBack` keeps the cache sorted from any sorted state. -/
theorem searchBack_sorted (c : Chain) (initN inc T : Nat) :
    ∀ fuel mult cache cache2, SortedByNumber cache →
      searchBack c initN inc T mult fuel cache = some cache2 → SortedByNumber cache2 := by
  intro fuel
  induction fuel with
  | zero => intro mult cache cache2 _ h; simp [searchBack] at h
  | succ fuel ih =>
      intro mult cache cache2 hs h
      simp only [searchBack] at h
      split at h
      · exact (Option.some.injEq _ _ ▸ h) ▸ getBlock_sorted c _ cache hs
      · split at h
        · cases h
        · exact ih (mult + 1) _ cache2 (getBlock_sorted c _ cache hs) h

/-- Success and postcondition of the backward walk: with positive step, a
target at/after the genesis timestamp, and enough fuel, it returns an
invariant-satisfying cache extension containing a block at/before `T`. -/
theorem searchBack_spec (c : Chain) (initN inc T : Nat) (hT : c.ts 0 ≤ T) :
    ∀ fuel mult cache, CacheInv c cache → initN ≤ c.headNum → 1 ≤ mult →
      initN ≤ (mult - 1 + fuel) * inc → (mult - 1) * inc < initN →
      ∃ cache2, searchBack c initN inc T mult fuel cache = some cache2 ∧
        CacheInv c cache2 ∧ cache ⊆ cache2 ∧ ∃ b ∈ cache2, b.timestamp ≤ T := by
  intro fuel
  induction fuel with
  | zero =>
      intro mult cache _ _ _ h1 h2
      exact absurd h1 (Nat.not_le.2 h2)
  | succ fuel ih =>
      intro mult cache hInv hinit hm h1 h2
      obtain ⟨hget1, hget2, hget3, hget4⟩ :=
        getBlock_spec c (initN - mult * inc) cache hInv (Nat.le_trans (Nat.sub_le _ _) hinit)
      simp only [searchBack]
      split
      · rename_i hle
        refine ⟨_, rfl, hget2, hget3, (getBlock c (initN - mult * inc) cache).1, ?_, hle⟩
        rw [hget1]
        exact hget4
      · rename_i hgt
        rw [hget1] at hgt
        simp only at hgt
        have hbn : initN - mult * inc ≠ 0 := by
          intro h0
          rw [h0] at hgt
          exact hgt hT
        rw [if_neg hbn]
        have h1n : initN ≤ (mult + 1 - 1 + fuel) * inc := by
          have : mult + 1 - 1 + fuel = mult - 1 + (fuel + 1) := by omega
          rw [this]
          exact h1
        have h2n : (mult + 1 - 1) * inc < initN := by
          have hd : mult * inc < initN := by
            revert hbn
            generalize mult * inc = d
            omega
          simpa using hd
        obtain ⟨cache2, heq, hi2, hsub, hex⟩ :=
          ih (mult + 1) _ hget2 hinit (by omega) h1n h2n
        exact ⟨cache2, heq, hi2, fun a ha => hsub (hget3 ha), hex⟩

/-- `findBlock` keeps the cache sorted from any sorted state. -/
theorem findBlock_sorted (c : Chain) (T : Nat) :
    ∀ fuel s? e cache B cache2, SortedByNumber cache →
      findBlock c T fuel s? e cache = some (B, cache2) → SortedByNumber cache2 := by
  intro fuel
  induction fuel with
  | zero => intro s? e cache B cache2 _ h; simp [findBlock] at h
  | succ fuel ih =>
      intro s? e cache B cache2 hs h
      simp only [findBlock] at h
      split at h
      · cases h; exact hs
      · cases s? with
        | none => cases h
        | some startB =>
            simp only at h
            split at h
            · cases h; exact hs
            · split at h
              · cases h
              · split at h
                · split at h
                  · exact ih _ _ _ B cache2 (getBlock_sorted c _ cache hs) h
                  · exact ih _ _ _ B cache2 (getBlock_sorted c _ cache hs) h
                · cases h

theorem jsClamp_mem (x lo hi : Nat) (h : lo ≤ hi) : lo ≤ jsClamp x lo hi ∧ jsClamp x lo hi ≤ hi := by
  unfold jsClamp
  omega

/-- Correctness of the interpolation search: from an invariant cache and a
bracket `s < e` with `s.timestamp < T ≤ e.timestamp` (both consistent with a
strictly monotone chain), enough fuel yields a block at/before `T` whose
successor is after `T`, with the invariant preserved. -/
theorem findBlock_spec (c : Chain) (T : Nat) (hmono : StrictMono c.ts) :
    ∀ fuel s e cache, CacheInv c cache →
      s.timestamp = c.ts s.number → e.timestamp = c.ts e.number →
      s.number < e.number → e.number ≤ c.headNum →
      s.timestamp < T → T ≤ e.timestamp →
      e.number - s.number < fuel →
      ∃ B cache2, findBlock c T fuel (some s) e cache = some (B, cache2) ∧
        CacheInv c cache2 ∧ B.timestamp ≤ T ∧ T < c.ts (B.number + 1) := by
  intro fuel
  induction fuel with
  | zero =>
      intro s e cache _ _ _ hlt _ _ _ hfuel
      omega
  | succ fuel ih =>
      intro s e cache hInv hsc hec hlt hhead hsT hTe hfuel
      simp only [findBlock]
      by_cases heT : e.timestamp = T
      · rw [if_pos heT]
        refine ⟨e, cache, rfl, hInv, Nat.le_of_eq heT, ?_⟩
        have := hmono (Nat.lt_succ_self e.number)
        rw [← hec, heT] at this
        exact this
      · rw [if_neg heT]
        have hTe2 : T < e.timestamp := Nat.lt_of_le_of_ne hTe (fun h => heT h.symm)
        by_cases hadj : e.number = s.number + 1
        · rw [if_pos hadj]
          refine ⟨s, cache, rfl, hInv, Nat.le_of_lt hsT, ?_⟩
          rw [← hadj, ← hec]
          exact hTe2
        · rw [if_neg hadj, if_neg (by omega), if_pos ⟨hsT, hTe2⟩]
          have hgap : s.number + 1 ≤ e.number - 1 := by omega
          obtain ⟨htlo, hthi⟩ := jsClamp_mem
            (s.number + jsRound ((T - s.timestamp) * (e.number - s.number))
              (e.timestamp - s.timestamp)) (s.number + 1) (e.number - 1) hgap
          set target := jsClamp
            (s.number + jsRound ((T - s.timestamp) * (e.number - s.number))
              (e.timestamp - s.timestamp)) (s.number + 1) (e.number - 1) with htarget
          have hthead : target ≤ c.headNum := by omega
          obtain ⟨hg1, hg2, hg3, hg4⟩ := getBlock_spec c target cache hInv hthead
          rw [hg1]
          by_cases hnt : c.ts target < T
          · rw [if_pos (show (Block.mk target (c.ts target)).timestamp < T from hnt)]
            exact ih ⟨target, c.ts target⟩ e _ hg2 rfl hec
              (show target < e.number by omega) hhead hnt hTe
              (show e.number - target < fuel by omega)
          · rw [if_neg (show ¬ (Block.mk target (c.ts target)).timestamp < T from hnt)]
            exact ih s ⟨target, c.ts target⟩ _ hg2 hsc rfl
              (show s.number < target by omega) (show target ≤ c.headNum by omega) hsT
              (Nat.le_of_not_lt hnt) (show target - s.number < fuel by omega)

theorem sortedIndexBy_le (key : Block → Nat) (v : Nat) :
    ∀ (l : List Block) (k : Nat) (b : Block), l[k]? = some b → v ≤ key b →
      sortedIndexBy key v l ≤ k
  | [], k, b => by intro h _; simp at h
  | a :: l, k, b => by
      intro hk hb
      by_cases ha : v ≤ key a
      · simp [sortedIndexBy, ha]
      · cases k with
        | zero =>
            simp only [List.getElem?_cons_zero, Option.some.injEq] at hk
            exact absurd (hk ▸ hb) ha
        | succ k =>
            simp only [List.getElem?_cons_succ] at hk
            simp only [sortedIndexBy, if_neg ha]
            exact Nat.succ_le_succ (sortedIndexBy_le key v l k b hk hb)

theorem sortedIndexBy_get_ge (key : Block → Nat) (v : Nat) :
    ∀ (l : List Block) (b : Block), l[sortedIndexBy key v l]? = some b → v ≤ key b
  | [], b => by intro h; simp at h
  | a :: l, b => by
      intro h
      by_cases ha : v ≤ key a
      · simp only [sortedIndexBy, if_pos ha, List.getElem?_cons_zero, Option.some.injEq] at h
        exact h ▸ ha
      · simp only [sortedIndexBy, if_neg ha, List.getElem?_cons_succ] at h
        exact sortedIndexBy_get_ge key v l b h

theorem sortedIndexBy_prev_lt (key : Block → Nat) (v : Nat) :
    ∀ (l : List Block) (j : Nat) (b : Block), j < sortedIndexBy key v l →
      l[j]? = some b → key b < v
  | [], j, b => by intro h _; simp [sortedIndexBy] at h
  | a :: l, j, b => by
      intro hj hb
      by_cases ha : v ≤ key a
      · simp [sortedIndexBy, if_pos ha] at hj
      · cases j with
        | zero =>
            simp only [List.getElem?_cons_zero, Option.some.injEq] at hb
            exact hb ▸ Nat.lt_of_not_le ha
        | succ j =>
            simp only [sortedIndexBy, if_neg ha] at hj
            simp only [List.getElem?_cons_succ] at hb
            exact sortedIndexBy_prev_lt key v l j b (Nat.lt_of_succ_lt_succ hj) hb

theorem pairwise_getElem? {R : Block → Block → Prop} :
    ∀ (l : List Block), l.Pairwise R → ∀ (i j : Nat) (a b : Block), i < j →
      l[i]? = some a → l[j]? = some b → R a b := by
  intro l hl i j a b hij ha hb
  obtain ⟨hi2, ha2⟩ := List.getElem?_eq_some.mp ha
  obtain ⟨hj2, hb2⟩ := List.getElem?_eq_some.mp hb
  have := List.pairwise_iff_get.mp hl ⟨i, hi2⟩ ⟨j, hj2⟩ hij
  simpa [List.get_eq_getElem, ha2, hb2] using this

/-- In a number-sorted cache the head has the least block number. -/
theorem head_min (cache : List Block) (e : Block) (hs : SortedByNumber cache)
    (he : cache[0]? = some e) : ∀ b ∈ cache, e.number ≤ b.number := by
  intro b hb
  obtain ⟨j, hj⟩ := List.getElem?_of_mem hb
  cases j with
  | zero =>
      rw [he] at hj
      cases hj
      exact Nat.le_refl _
  | succ j =>
      exact Nat.le_of_lt
        (pairwise_getElem? cache hs 0 (j + 1) e b (Nat.succ_pos j) he hj)

/-- `locateInCache` keeps the cache sorted from any sorted state. -/
theorem locateInCache_sorted (c : Chain) (T : Nat) (cache : List Block) (B : Block)
    (cache2 : List Block) (hs : SortedByNumber cache)
    (h : locateInCache c T cache = some (B, cache2)) : SortedByNumber cache2 := by
  simp only [locateInCache] at h
  split at h
  · cases h
  · exact findBlock_sorted c T _ _ _ _ B cache2 hs h

/-- Correctness of the bracket search: from an invariant cache holding a
block at/before `T` and one at/after `T`, `locateInCache` returns the block
at/before `T` whose successor block is after `T`. -/
theorem locateInCache_spec (c : Chain) (T : Nat) (hmono : StrictMono c.ts)
    (cache : List Block) (hInv : CacheInv c cache)
    (hlow : ∃ b ∈ cache, b.timestamp ≤ T) (hupp : ∃ b ∈ cache, T ≤ b.timestamp) :
    ∃ B cache2, locateInCache c T cache = some (B, cache2) ∧
      B.timestamp ≤ T ∧ T < c.ts (B.number + 1) := by
  obtain ⟨bu, hbu, hbuT⟩ := hupp
  obtain ⟨k, hk⟩ := List.getElem?_of_mem hbu
  have hile : sortedIndexBy Block.timestamp T cache ≤ k :=
    sortedIndexBy_le Block.timestamp T cache k bu hk hbuT
  have hklen : k < cache.length := (List.getElem?_eq_some.mp hk).1
  have hilen : sortedIndexBy Block.timestamp T cache < cache.length :=
    Nat.lt_of_le_of_lt hile hklen
  obtain ⟨e, he⟩ : ∃ e, cache[sortedIndexBy Block.timestamp T cache]? = some e := by
    rw [List.getElem?_eq_getElem hilen]
    exact ⟨_, rfl⟩
  have heT : T ≤ e.timestamp := sortedIndexBy_get_ge Block.timestamp T cache e he
  have hemem : e ∈ cache := List.getElem?_mem he
  have heconsist := (hInv.2 e hemem).1
  have hehead := (hInv.2 e hemem).2
  simp only [locateInCache]
  rw [he]
  by_cases hi0 : sortedIndexBy Block.timestamp T cache = 0
  · rw [hi0]
    simp only [if_pos rfl]
    have heTeq : e.timestamp = T := by
      obtain ⟨bl, hbl, hblT⟩ := hlow
      rw [hi0] at he
      have hnum := head_min cache e hInv.1 he bl hbl
      have hts : e.timestamp ≤ bl.timestamp := by
        rw [heconsist, (hInv.2 bl hbl).1]
        exact hmono.le_iff_le.mpr hnum
      omega
    refine ⟨e, cache, ?_, Nat.le_of_eq heTeq, ?_⟩
    · simp only [findBlock, if_pos heTeq]
    · have := hmono (Nat.lt_succ_self e.number)
      rw [← heconsist, heTeq] at this
      exact this
  · rw [if_neg hi0]
    obtain ⟨i2, hi2⟩ : ∃ i2, sortedIndexBy Block.timestamp T cache = i2 + 1 :=
      ⟨sortedIndexBy Block.timestamp T cache - 1, by omega⟩
    rw [hi2] at he hilen ⊢
    simp only [Nat.add_sub_cancel]
    obtain ⟨s, hsg⟩ : ∃ s, cache[i2]? = some s := by
      rw [List.getElem?_eq_getElem (by omega)]
      exact ⟨_, rfl⟩
    rw [hsg]
    have hsT : s.timestamp < T := by
      refine sortedIndexBy_prev_lt Block.timestamp T cache i2 s ?_ hsg
      omega
    have hsmem : s ∈ cache := List.getElem?_mem hsg
    have hsconsist := (hInv.2 s hsmem).1
    have hse : s.number < e.number :=
      pairwise_getElem? cache hInv.1 i2 (i2 + 1) s e (Nat.lt_succ_self i2) hsg he
    obtain ⟨B, cache2, hfb, hI, hBT, hBnext⟩ :=
      findBlock_spec c T hmono (e.number + 1) s e cache hInv hsconsist heconsist hse hehead
        hsT heT (by omega)
    exact ⟨B, cache2, hfb, hBT, hBnext⟩

/-- `getBlockForTimestampMain` keeps the cache sorted from any sorted state. -/
theorem getBlockForTimestampMain_sorted (c : Chain) (T : Nat) (cache : List Block)
    (B : Block) (cache2 : List Block) (hs : SortedByNumber cache)
    (h : getBlockForTimestampMain c T cache = some (B, cache2)) : SortedByNumber cache2 := by
  simp only [getBlockForTimestampMain] at h
  split at h
  · cases h
  · split at h
    · split at h
      · cases h
      · rename_i cachemid hsb
        exact locateInCache_sorted c T cachemid B cache2
          (searchBack_sorted c _ _ T _ 1 cache cachemid hs hsb) h
    · exact locateInCache_sorted c T cache B cache2 hs h

/-- Correctness of the backward-walk stage: with a strictly monotone chain,
an invariant cache containing a block at/after `T`, and `T` at/after the
genesis timestamp, the walk-then-bracket stage returns the block at/before
`T` whose successor block is after `T`. -/
theorem getBlockForTimestampMain_spec (c : Chain) (T : Nat) (hmono : StrictMono c.ts)
    (cache : List Block) (hInv : CacheInv c cache) (hT0 : c.ts 0 ≤ T)
    (hupp : ∃ b ∈ cache, T ≤ b.timestamp) :
    ∃ B cache2, getBlockForTimestampMain c T cache = some (B, cache2) ∧
      B.timestamp ≤ T ∧ T < c.ts (B.number + 1) := by
  match cache, hupp with
  | b0 :: rest, hupp =>
      simp only [getBlockForTimestampMain, List.head?_cons]
      have hb0mem : b0 ∈ b0 :: rest := List.mem_cons_self b0 rest
      have hb0c := (hInv.2 b0 hb0mem).1
      have hb0h := (hInv.2 b0 hb0mem).2
      by_cases hgt : b0.timestamp > T
      · rw [if_pos hgt]
        have hb0pos : 0 < b0.number := by
          rcases Nat.eq_zero_or_pos b0.number with h0 | h
          · rw [h0] at hb0c
            omega
          · exact h
        have hinc : 1 ≤ max (estimateBlocksElapsed (b0.timestamp - T)) 1 :=
          Nat.le_max_right _ 1
        obtain ⟨cache2, hsb, hInv2, hsub, hlow2⟩ :=
          searchBack_spec c b0.number (max (estimateBlocksElapsed (b0.timestamp - T)) 1) T hT0
            (b0.number + 1) 1 (b0 :: rest) hInv hb0h (Nat.le_refl 1)
            (by
              simp only [Nat.sub_self, Nat.zero_add]
              calc b0.number ≤ b0.number + 1 := Nat.le_succ _
                _ = (b0.number + 1) * 1 := (Nat.mul_one _).symm
                _ ≤ (b0.number + 1) * max (estimateBlocksElapsed (b0.timestamp - T)) 1 :=
                    Nat.mul_le_mul_left _ hinc)
            (by simpa using hb0pos)
        rw [hsb]
        refine locateInCache_spec c T hmono cache2 hInv2 hlow2 ?_
        obtain ⟨bu, hbu, hbuT⟩ := hupp
        exact ⟨bu, hsub hbu, hbuT⟩
      · rw [if_neg hgt]
        exact locateInCache_spec c T hmono (b0 :: rest) hInv
          ⟨b0, hb0mem, Nat.le_of_not_lt hgt⟩ hupp

/-- `getBlockForTimestamp` keeps the cache sorted from any sorted state. -/
theorem getBlockForTimestamp_sorted (c : Chain) (T : Nat) (cache : List Block)
    (B : Block) (cache2 : List Block) (hs : SortedByNumber cache)
    (h : getBlockForTimestamp c T cache = some (B, cache2)) : SortedByNumber cache2 := by
  simp only [getBlockForTimestamp] at h
  split at h
  · split at h
    · cases h
      exact getLatestBlock_sorted c cache hs
    · exact getBlockForTimestampMain_sorted c T _ B cache2 (getLatestBlock_sorted c cache hs) h
  · exact getBlockForTimestampMain_sorted c T cache B cache2 hs h

/-- Full correctness of the locator: for a strictly monotone chain, an
invariant cache and a target at/after genesis, `getBlockForTimestamp`
returns a block at/before `T` that is the chain head or whose successor is
after `T`. -/
theorem getBlockForTimestamp_spec (c : Chain) (T : Nat) (cache : List Block)
    (hmono : StrictMono c.ts) (hInv : CacheInv c cache) (hT0 : c.ts 0 ≤ T) :
    ∃ B cache2, getBlockForTimestamp c T cache = some (B, cache2) ∧
      B.timestamp ≤ T ∧ (B.number = c.headNum ∨ T < c.ts (B.number + 1)) := by
  obtain ⟨hl1, hl2, hl3, hl4⟩ := getLatestBlock_spec c cache hInv
  simp only [getBlockForTimestamp]
  split
  · rw [hl1]
    by_cases hTh : T ≥ c.ts c.headNum
    · rw [if_pos hTh]
      exact ⟨_, _, rfl, hTh, Or.inl rfl⟩
    · rw [if_neg hTh]
      obtain ⟨B, cache2, hm, hBT, hBn⟩ :=
        getBlockForTimestampMain_spec c T hmono (getLatestBlock c cache).2 hl2 hT0
          ⟨⟨c.headNum, c.ts c.headNum⟩, hl4, Nat.le_of_lt (Nat.lt_of_not_le hTh)⟩
      exact ⟨B, cache2, hm, hBT, Or.inr hBn⟩
  · rename_i hcond
    obtain ⟨bl, hbl, hblT⟩ : ∃ bl, cache.getLast? = some bl ∧ T ≤ bl.timestamp := by
      cases hgl : cache.getLast? with
      | none => rw [hgl] at hcond; simp at hcond
      | some bl =>
          rw [hgl] at hcond
          simp only [Option.all_some, decide_eq_true_eq] at hcond
          exact ⟨bl, rfl, Nat.le_of_not_lt hcond⟩
    obtain ⟨B, cache2, hm, hBT, hBn⟩ :=
      getBlockForTimestampMain_spec c T hmono cache hInv hT0
        ⟨bl, List.mem_of_mem_getLast? hbl, hblT⟩
    exact ⟨B, cache2, hm, hBT, Or.inr hBn⟩

/-- C1 (counterexample to the claim as stated): for a chain whose genesis
block has timestamp 100 and whose head is block 5, requesting timestamp 50
from the (reachable, initial) empty cache does not return any block at all —
the backward walk reaches block 0 and the JS `assert` throws — so the
unrestricted claim "for every timestamp T … returns a block B …" fails. -/
theorem C1_counterexample :
    ¬ ∃ B cache2, getBlockForTimestamp ⟨fun n => n + 100, 5⟩ 50 [] = some (B, cache2) ∧
        B.timestamp ≤ 50 ∧ (B.number = 5 ∨ 50 < B.number + 1 + 100) := by
  intro h
  obtain ⟨B, cache2, h, _⟩ := h
  rw [show getBlockForTimestamp ⟨fun n => n + 100, 5⟩ 50 [] = none from by decide] at h
  cases h

/-- C1 (amended): for every chain with strictly increasing block timestamps,
every cache state satisfying the reachable-state invariant, and every
timestamp `T` at or after the genesis block's timestamp, the locator returns
a block `B` with `B.timestamp ≤ T` such that `B` is the chain head or the
block with number `B.number + 1` has timestamp `> T` (`B` is the supremum of
blocks at or before `T`). -/
theorem C1_locate_supremum (c : Chain) (T : Nat) (cache : List Block)
    (hmono : StrictMono c.ts) (hInv : CacheInv c cache) (hT0 : c.ts 0 ≤ T) :
    ∃ B cache2, getBlockForTimestamp c T cache = some (B, cache2) ∧
      B.timestamp ≤ T ∧ (B.number = c.headNum ∨ T < c.ts (B.number + 1)) :=
  getBlockForTimestamp_spec c T cache hmono hInv hT0

theorem C1_locate_supremum_witness :
    ∃ B cache2, getBlockForTimestamp ⟨fun n => n + 100, 5⟩ 103 [] = some (B, cache2) ∧
      B.timestamp ≤ 103 ∧ (B.number = 5 ∨ 103 < B.number + 1 + 100) :=
  C1_locate_supremum ⟨fun n => n + 100, 5⟩ 103 []
    (fun _ _ hab => Nat.add_lt_add_right hab 100)
    ⟨List.Pairwise.nil, by simp⟩ (by norm_num)

/-- C3: the locator's cache stays sorted strictly ascending by block number
(hence unique per number) under each operation — `getBlock`,
`getLatestBlock` and `getBlockForTimestamp` — from any state satisfying the
invariant. -/
theorem C3_cache_sorted_preserved (c : Chain) (n T : Nat) (cache : List Block)
    (h : SortedByNumber cache) :
    SortedByNumber (getBlock c n cache).2 ∧ SortedByNumber (getLatestBlock c cache).2 ∧
      ∀ B cache2, getBlockForTimestamp c T cache = some (B, cache2) → SortedByNumber cache2 :=
  ⟨getBlock_sorted c n cache h, getLatestBlock_sorted c cache h,
    fun B cache2 => getBlockForTimestamp_sorted c T cache B cache2 h⟩

theorem C3_cache_sorted_preserved_witness :
    SortedByNumber (getBlock ⟨fun n => n + 100, 5⟩ 2 [⟨1, 101⟩, ⟨4, 104⟩]).2 ∧
      SortedByNumber (getLatestBlock ⟨fun n => n + 100, 5⟩ [⟨1, 101⟩, ⟨4, 104⟩]).2 ∧
      ∀ B cache2,
        getBlockForTimestamp ⟨fun n => n + 100, 5⟩ 103 [⟨1, 101⟩, ⟨4, 104⟩] =
            some (B, cache2) →
          SortedByNumber cache2 :=
  C3_cache_sorted_preserved ⟨fun n => n + 100, 5⟩ 2 103 [⟨1, 101⟩, ⟨4, 104⟩] (by decide)

set_option maxRecDepth 40000 in
/-- C2: at the spec's own test input — range `[0, 200]` with a fault pattern
failing every request of window above 50 blocks (all smaller requests
succeed, so every sub-request eventually succeeds) — the fetcher returns
exactly the events of blocks 0–199: block 200 lies in the inclusive range
but its events are never returned, because the loop breaks without
requesting it when a successful sub-request ends exactly at `toBlock - 1`. -/
theorem C2_missing_last_block :
    getRateLimitedEvents (fun lo hi => decide (hi - lo + 1 > 50)) 0 200 20 =
        some (intRange 0 199) ∧
      (200 : Int) ∈ intRange 0 200 ∧ (200 : Int) ∉ intRange 0 199 := by
  refine ⟨by decide, by decide, by decide⟩

theorem specTwapSum_nil (e : Nat) : specTwapSum [] e = 0 := by
  simp [specTwapSum]

theorem specTwapSum_cons (x : Item) (l : List Item) (e : Nat) :
    specTwapSum (x :: l) e =
      (if l = [] then x.value * ((e : Rat) - tsQ x)
       else x.value * (tsQ (l.getD 0 default) - tsQ x)) + specTwapSum l e := by
  unfold specTwapSum
  rw [show (x :: l).length = l.length + 1 from rfl, Finset.sum_range_succ']
  rw [add_comm]
  congr 1
  · cases l with
    | nil => simp [List.getD]
    | cons y t =>
        rw [if_neg (by simp), if_neg (by simp)]
        simp [List.getD]
  · apply Finset.sum_congr rfl
    intro i hi
    simp only [Finset.mem_range] at hi
    simp only [List.getD_cons_succ]
    congr 1
    by_cases hc : i + 1 = l.length
    · rw [if_pos (by omega), if_pos hc]
    · rw [if_neg (by omega), if_neg hc]

/-- The `forEach` accumulation equals the spec's indexed weighted sum. -/
theorem cumValue_eq_specTwapSum (e : Nat) :
    ∀ sel : List Item, cumValue e sel = specTwapSum sel e
  | [] => by simp [cumValue, specTwapSum]
  | [x] => by
      rw [cumValue, specTwapSum_cons, if_pos rfl, specTwapSum_nil, add_zero]
  | x :: y :: rest => by
      rw [cumValue, cumValue_eq_specTwapSum e (y :: rest), specTwapSum_cons x (y :: rest) e,
        if_neg (List.cons_ne_nil y rest), List.getD_cons_zero]

/-- C4 (counterexample to the claim as stated): a series with a single
sample timestamped exactly 0 over the window `[0, 1)`.  The claim's formula
selects the sample (its timestamp lies in the window) and yields 5, but
`calculateTwap` drops it — the JS truthiness test on the timestamp fails at
0 — and returns 0. -/
theorem C4_counterexample :
    calculateTwap [⟨some 0, 0, 5⟩] 0 1 ≠ claimTwap [⟨some 0, 0, 5⟩] 0 1 := by
  have h1 : calculateTwap [⟨some 0, 0, 5⟩] 0 1 = 0 := by
    norm_num [calculateTwap, selectedBalances, twapSelect, cumValue, List.filter]
  have h2 : claimTwap [⟨some 0, 0, 5⟩] 0 1 = 5 := by
    norm_num [claimTwap, claimSelect, List.filter, specTwapSum, Finset.sum_range_succ,
      tsQ, List.getD, cumValue]
  rw [h1, h2]
  norm_num

/-- C4 (amended): for every balance series and window, `calculateTwap`
equals the sum over the selected samples — those with a present, non-zero
timestamp in `[start, end)` — of value times weight, each weight being the
time to the next selected sample's timestamp and the last one being
`end − timestamp`, divided by `end − start`. -/
theorem C4_twap_weighted_sum (l : List Item) (s e : Nat) (_hse : s < e) :
    calculateTwap l s e = specTwapSum (selectedBalances l s e) e / ((e : Rat) - (s : Rat)) := by
  rw [calculateTwap, cumValue_eq_specTwapSum]

theorem C4_twap_weighted_sum_witness :
    calculateTwap [⟨some 5, 1, 4⟩, ⟨some 7, 1, 6⟩] 5 9 =
      specTwapSum (selectedBalances [⟨some 5, 1, 4⟩, ⟨some 7, 1, 6⟩] 5 9) 9 /
        ((9 : Rat) - (5 : Rat)) :=
  C4_twap_weighted_sum [⟨some 5, 1, 4⟩, ⟨some 7, 1, 6⟩] 5 9 (by norm_num)

/-- C10: a sample whose timestamp is absent or exactly 0 is excluded from
the TWAP integration — removing it from the series leaves `calculateTwap`
unchanged for every window, so its value never affects the result. -/
theorem C10_untimestamped_sample_ignored (l1 l2 : List Item) (x : Item) (s e : Nat)
    (hx : x.timestamp = none ∨ x.timestamp = some 0) :
    calculateTwap (l1 ++ x :: l2) s e = calculateTwap (l1 ++ l2) s e := by
  have hfalse : twapSelect s e x = false := by
    rcases hx with hx | hx
    · simp [twapSelect, hx]
    · simp [twapSelect, hx]
  rw [calculateTwap, calculateTwap, selectedBalances, selectedBalances,
    List.filter_append, List.filter_append, List.filter_cons, hfalse]
  simp

theorem C10_untimestamped_sample_ignored_witness :
    calculateTwap [⟨some 5, 1, 3⟩, ⟨some 0, 9, 9⟩] 0 10 =
      calculateTwap [⟨some 5, 1, 3⟩] 0 10 :=
  C10_untimestamped_sample_ignored [⟨some 5, 1, 3⟩] [] ⟨some 0, 9, 9⟩ 0 10 (Or.inr rfl)

/-- Telescoping of the step integration over a constant-value selection. -/
theorem cumValue_const (e : Nat) (v : Rat) :
    ∀ sel : List Item, (∀ it ∈ sel, it.value = v) → sel ≠ [] →
      cumValue e sel = v * ((e : Rat) - tsQ (sel.getD 0 default))
  | [], _, hne => absurd rfl hne
  | [x], hv, _ => by
      rw [cumValue, hv x (List.mem_cons_self x []), List.getD_cons_zero]
  | x :: y :: rest, hv, _ => by
      rw [cumValue, cumValue_const e v (y :: rest)
        (fun it hit => hv it (List.mem_cons_of_mem x hit)) (List.cons_ne_nil y rest)]
      rw [hv x (List.mem_cons_self x (y :: rest)), List.getD_cons_zero, List.getD_cons_zero]
      ring

/-- C5 (counterexample to the claim as stated): a constant-value series over
the window `[0, 10)` with a sample exactly at the window start 0.  The
truthiness filter drops the start sample, so the first selected sample sits
at timestamp 3 and the TWAP is 7/10, not the constant value 1. -/
theorem C5_counterexample :
    calculateTwap [⟨some 0, 1, 1⟩, ⟨some 3, 1, 1⟩] 0 10 ≠ 1 := by
  have h1 : calculateTwap [⟨some 0, 1, 1⟩, ⟨some 3, 1, 1⟩] 0 10 = 7 / 10 := by
    norm_num [calculateTwap, selectedBalances, twapSelect, cumValue, List.filter, tsQ]
  rw [h1]
  norm_num

/-- C5 (amended): for every window `[start, end)` with `0 < start < end` and
every timestamp-sorted balance series whose samples inside the window all
carry the value `v`, with a sample present exactly at the window start,
`calculateTwap` returns exactly `v`. -/
theorem C5_constant_series_twap (l : List Item) (s e : Nat) (v : Rat)
    (hs : 0 < s) (hse : s < e)
    (hsorted : l.Pairwise (fun a b => tsKey a ≤ tsKey b))
    (hstart : ∃ it ∈ l, it.timestamp = some s)
    (hconst : ∀ it ∈ l, twapSelect s e it = true → it.value = v) :
    calculateTwap l s e = v := by
  obtain ⟨it0, hit0l, hit0ts⟩ := hstart
  have hit0sel : it0 ∈ selectedBalances l s e := by
    rw [selectedBalances, List.mem_filter]
    refine ⟨hit0l, ?_⟩
    rw [twapSelect, hit0ts]
    simp only [Bool.and_eq_true, decide_eq_true_eq]
    omega
  have hvsel : ∀ it ∈ selectedBalances l s e, it.value = v := by
    intro it hit
    rw [selectedBalances, List.mem_filter] at hit
    exact hconst it hit.1 hit.2
  have hselsorted : (selectedBalances l s e).Pairwise (fun a b => tsKey a ≤ tsKey b) :=
    List.Pairwise.filter (twapSelect s e) hsorted
  cases hsel : selectedBalances l s e with
  | nil => rw [hsel] at hit0sel; cases hit0sel
  | cons x0 rest =>
      have hx0sel : x0 ∈ selectedBalances l s e := hsel ▸ List.mem_cons_self x0 rest
      obtain ⟨hx0l, hx0p⟩ := List.mem_filter.mp hx0sel
      obtain ⟨t0, ht0⟩ : ∃ t0, x0.timestamp = some t0 := by
        cases hx : x0.timestamp with
        | none => rw [twapSelect, hx] at hx0p; cases hx0p
        | some t0 => exact ⟨t0, rfl⟩
      have ht0p : t0 ≠ 0 ∧ s ≤ t0 ∧ t0 < e := by
        rw [twapSelect, ht0] at hx0p
        simp only [Bool.and_eq_true, decide_eq_true_eq] at hx0p
        omega
      have ht0s : t0 = s := by
        rcases List.mem_cons.mp (hsel ▸ hit0sel) with h | h
        · rw [← h, hit0ts] at ht0
          injection ht0 with ht0
          omega
        · have hle : tsKey x0 ≤ tsKey it0 := by
            rw [hsel] at hselsorted
            exact (List.pairwise_cons.mp hselsorted).1 it0 h
          have hle2 : ((t0 : WithBot Nat)) ≤ ((s : WithBot Nat)) := by
            rw [tsKey, tsKey, ht0, hit0ts] at hle
            exact hle
          have hts2 : t0 ≤ s := WithBot.coe_le_coe.mp hle2
          omega
      have hcv : cumValue e (selectedBalances l s e) = v * ((e : Rat) - (s : Rat)) := by
        rw [hsel, cumValue_const e v (x0 :: rest) (hsel ▸ hvsel) (List.cons_ne_nil x0 rest),
          List.getD_cons_zero, tsQ, ht0, ht0s]
        simp
      rw [calculateTwap, hcv, mul_div_assoc]
      have hne : ((e : Rat) - (s : Rat)) ≠ 0 := by
        have hlt : (s : Rat) < (e : Rat) := by exact_mod_cast hse
        intro h0
        rw [sub_eq_zero] at h0
        rw [h0] at hlt
        exact lt_irrefl _ hlt
      rw [div_self hne, mul_one]

theorem C5_constant_series_twap_witness :
    calculateTwap [⟨some 5, 1, 2⟩, ⟨some 7, 1, 2⟩] 5 9 = 2 :=
  C5_constant_series_twap [⟨some 5, 1, 2⟩, ⟨some 7, 1, 2⟩] 5 9 2 (by norm_num) (by norm_num)
    (by decide)
    ⟨⟨some 5, 1, 2⟩, List.mem_cons_self _ _, rfl⟩
    (by
      intro it hit _
      rcases List.mem_cons.mp hit with rfl | hit
      · rfl
      · rcases List.mem_cons.mp hit with rfl | hit
        · rfl
        · cases hit)

theorem jsFindIndex_eq_none {α : Type} (p : α → Bool) :
    ∀ l : List α, jsFindIndex p l = none ↔ ∀ x ∈ l, p x = false
  | [] => by simp [jsFindIndex]
  | a :: l => by
      by_cases ha : p a
      · simp [jsFindIndex, ha]
      · rw [jsFindIndex, if_neg (by simp [ha])]
        simp only [Option.map_eq_none', List.mem_cons]
        rw [jsFindIndex_eq_none p l]
        constructor
        · intro h x hx
          rcases hx with rfl | hx
          · exact Bool.eq_false_iff.mpr ha
          · exact h x hx
        · intro h x hx
          exact h x (Or.inr hx)

theorem jsFindIndex_spec {α : Type} (p : α → Bool) :
    ∀ (l : List α) (i : Nat), jsFindIndex p l = some i →
      i < l.length ∧ (∀ j x, j < i → l[j]? = some x → p x = false) ∧
        ∀ x, l[i]? = some x → p x = true
  | [], i => by
      intro h
      simp [jsFindIndex] at h
  | a :: l, i => by
      intro h
      by_cases ha : p a
      · rw [jsFindIndex, if_pos ha] at h
        cases h
        refine ⟨Nat.succ_pos _, by omega, ?_⟩
        intro x hx
        simp only [List.getElem?_cons_zero, Option.some.injEq] at hx
        exact hx ▸ ha
      · rw [jsFindIndex, if_neg (by simp [ha])] at h
        cases hfi : jsFindIndex p l with
        | none => rw [hfi] at h; cases h
        | some i2 =>
            rw [hfi] at h
            simp only [Option.map_some', Option.some.injEq] at h
            subst h
            obtain ⟨h1, h2, h3⟩ := jsFindIndex_spec p l i2 hfi
            refine ⟨by simpa using h1, ?_, ?_⟩
            · intro j x hj hx
              cases j with
              | zero =>
                  simp only [List.getElem?_cons_zero, Option.some.injEq] at hx
                  exact hx ▸ Bool.eq_false_iff.mpr ha
              | succ j =>
                  simp only [List.getElem?_cons_succ] at hx
                  exact h2 j x (by omega) hx
            · intro x hx
              simp only [List.getElem?_cons_succ] at hx
              exact h3 x hx

theorem pairwise_getElem_poly {α : Type} {R : α → α → Prop} :
    ∀ (l : List α), l.Pairwise R → ∀ (i j : Nat) (a b : α), i < j →
      l[i]? = some a → l[j]? = some b → R a b := by
  intro l hl i j a b hij ha hb
  obtain ⟨hi2, ha2⟩ := List.getElem?_eq_some.mp ha
  obtain ⟨hj2, hb2⟩ := List.getElem?_eq_some.mp hb
  have := List.pairwise_iff_get.mp hl ⟨i, hi2⟩ ⟨j, hj2⟩ hij
  simpa [List.get_eq_getElem, ha2, hb2] using this


theorem getLast?_map_cons_ne_none {α β : Type} (f : α → β) (x : α) (l : List α) :
    ((x :: l).getLast?).map f ≠ none := by
  intro h
  rw [Option.map_eq_none'] at h
  have hsome : ((x :: l).getLast?).isSome := by
    rw [List.getLast?_isSome]
    exact List.cons_ne_nil _ _
  rw [h] at hsome
  cases hsome

/-- C6: for every non-empty ascending price-point sequence and every query
timestamp, `getCoingeckoPriceAt` throws exactly when the query is strictly
before the first point's timestamp, and otherwise returns the price of the
latest point whose timestamp is at or before the query — in particular the
last point's price when the query is past the whole sequence (forward
fill). -/
theorem C6_price_at_latest (p0 : PricePoint) (rest : List PricePoint) (t : Rat)
    (hsorted : (p0 :: rest).Pairwise (fun a b => a.ms ≤ b.ms)) :
    (getCoingeckoPriceAt (p0 :: rest) t = none ↔ t < (p0.ms : Rat) / 1000) ∧
      ((p0.ms : Rat) / 1000 ≤ t →
        getCoingeckoPriceAt (p0 :: rest) t =
          ((p0 :: rest).filter (fun pp => decide ((pp.ms : Rat) / 1000 ≤ t))).getLast?.map
            PricePoint.price) := by
  cases hfi : jsFindIndex (fun pp => decide ((pp.ms : Rat) / 1000 > t)) (p0 :: rest) with
  | none =>
      have hall := (jsFindIndex_eq_none _ (p0 :: rest)).mp hfi
      have hp0 : ¬ (t < (p0.ms : Rat) / 1000) := by
        have := hall p0 (List.mem_cons_self _ _)
        simpa using this
      have hfilter : (p0 :: rest).filter (fun pp => decide ((pp.ms : Rat) / 1000 ≤ t)) =
          p0 :: rest := by
        apply List.filter_eq_self.mpr
        intro x hx
        have := hall x hx
        simp only [decide_eq_false_iff_not, not_lt] at this
        simpa using this
      refine ⟨⟨?_, fun ht => absurd ht hp0⟩, ?_⟩
      · intro hnone
        rw [getCoingeckoPriceAt, hfi] at hnone
        dsimp only at hnone
        exact absurd hnone (getLast?_map_cons_ne_none PricePoint.price p0 rest)
      · intro _
        rw [getCoingeckoPriceAt, hfi, hfilter]
  | some i =>
      obtain ⟨h1, h2, h3⟩ := jsFindIndex_spec _ (p0 :: rest) i hfi
      cases i with
      | zero =>
          have hp0 : t < (p0.ms : Rat) / 1000 := by
            have := h3 p0 (by simp)
            simpa using this
          refine ⟨⟨fun _ => hp0, fun _ => ?_⟩, fun hle => absurd hp0 (not_lt.mpr hle)⟩
          rw [getCoingeckoPriceAt, hfi]
      | succ i2 =>
          have hp0le : ¬ (t < (p0.ms : Rat) / 1000) := by
            have := h2 0 p0 (Nat.succ_pos _) (by simp)
            simpa using this
          have hi2len : i2 < (p0 :: rest).length := by omega
          obtain ⟨x2, hx2⟩ : ∃ x2, (p0 :: rest)[i2]? = some x2 := by
            rw [List.getElem?_eq_getElem hi2len]
            exact ⟨_, rfl⟩
          have htake : ((p0 :: rest).take (i2 + 1)).filter
              (fun pp => decide ((pp.ms : Rat) / 1000 ≤ t)) = (p0 :: rest).take (i2 + 1) := by
            apply List.filter_eq_self.mpr
            intro x hx
            obtain ⟨j, hj⟩ := List.getElem?_of_mem hx
            have hjlt : j < i2 + 1 := by
              have := (List.getElem?_eq_some.mp hj).1
              rw [List.length_take] at this
              omega
            rw [List.getElem?_take_of_lt hjlt] at hj
            have := h2 j x hjlt hj
            simp only [decide_eq_false_iff_not, not_lt] at this
            simpa using this
          have hdrop : ((p0 :: rest).drop (i2 + 1)).filter
              (fun pp => decide ((pp.ms : Rat) / 1000 ≤ t)) = [] := by
            apply List.filter_eq_nil_iff.mpr
            intro x hx
            obtain ⟨j, hj⟩ := List.getElem?_of_mem hx
            rw [List.getElem?_drop] at hj
            have hgt : t < (x.ms : Rat) / 1000 := by
              cases j with
              | zero =>
                  rw [Nat.add_zero] at hj
                  have := h3 x hj
                  simpa using this
              | succ j2 =>
                  obtain ⟨y, hy⟩ : ∃ y, (p0 :: rest)[i2 + 1]? = some y := by
                    rw [List.getElem?_eq_getElem h1]
                    exact ⟨_, rfl⟩
                  have hyms : t < (y.ms : Rat) / 1000 := by
                    have := h3 y hy
                    simpa using this
                  have hle : y.ms ≤ x.ms :=
                    pairwise_getElem_poly (p0 :: rest) hsorted (i2 + 1)
                      (i2 + 1 + (j2 + 1)) y x (by omega) hy hj
                  have hcast : (y.ms : Rat) ≤ (x.ms : Rat) := by exact_mod_cast hle
                  have hdiv : (y.ms : Rat) / 1000 ≤ (x.ms : Rat) / 1000 :=
                    (div_le_div_iff_of_pos_right (by norm_num)).mpr hcast
                  exact lt_of_lt_of_le hyms hdiv
            simp only [decide_eq_true_eq]
            exact not_le.mpr hgt
          have hfilter : (p0 :: rest).filter (fun pp => decide ((pp.ms : Rat) / 1000 ≤ t)) =
              (p0 :: rest).take (i2 + 1) := by
            conv_lhs => rw [← List.take_append_drop (i2 + 1) (p0 :: rest)]
            rw [List.filter_append, htake, hdrop, List.append_nil]
          have hlast : ((p0 :: rest).take (i2 + 1)).getLast? = (p0 :: rest)[i2]? := by
            rw [List.getLast?_eq_getElem?, List.length_take]
            have hmin : min (i2 + 1) (p0 :: rest).length = i2 + 1 := by omega
            rw [hmin, Nat.add_sub_cancel, List.getElem?_take_of_lt (Nat.lt_succ_self i2)]
          refine ⟨⟨?_, fun ht => absurd ht hp0le⟩, ?_⟩
          · intro hnone
            rw [getCoingeckoPriceAt, hfi] at hnone
            dsimp only at hnone
            rw [hx2] at hnone
            cases hnone
          · intro _
            rw [getCoingeckoPriceAt, hfi]
            dsimp only
            rw [hfilter, hlast, hx2]

theorem C6_price_at_latest_witness :
    (getCoingeckoPriceAt [⟨1000000, 10⟩, ⟨2000000, 20⟩] 1500 = none ↔
        (1500 : Rat) < ((1000000 : Nat) : Rat) / 1000) ∧
      (((1000000 : Nat) : Rat) / 1000 ≤ 1500 →
        getCoingeckoPriceAt [⟨1000000, 10⟩, ⟨2000000, 20⟩] 1500 =
          (([⟨1000000, 10⟩, ⟨2000000, 20⟩] : List PricePoint).filter
              (fun pp => decide ((pp.ms : Rat) / 1000 ≤ 1500))).getLast?.map
            PricePoint.price) :=
  C6_price_at_latest ⟨1000000, 10⟩ [⟨2000000, 20⟩] 1500 (by decide)

theorem jsFindIndex_append_false {α : Type} (p : α → Bool) :
    ∀ l1 l2 : List α, (∀ y ∈ l1, p y = false) →
      jsFindIndex p (l1 ++ l2) = (jsFindIndex p l2).map (· + l1.length)
  | [], l2 => by
      intro _
      simp only [List.nil_append, List.length_nil]
      cases jsFindIndex p l2 <;> simp
  | a :: l1, l2 => by
      intro hall
      have ha : p a = false := hall a (List.mem_cons_self _ _)
      rw [List.cons_append, jsFindIndex, if_neg (by simp [ha]),
        jsFindIndex_append_false p l1 l2 (fun y hy => hall y (List.mem_cons_of_mem a hy))]
      cases jsFindIndex p l2 with
      | none => simp
      | some i =>
          simp only [Option.map_some', Option.map_map, List.length_cons, Function.comp,
            Option.some.injEq]
          omega

theorem insertIdx_eq_append {α : Type} (x : α) :
    ∀ (l1 l2 : List α), (l1 ++ l2).insertIdx l1.length x = l1 ++ x :: l2
  | [], l2 => by simp
  | a :: l1, l2 => by
      simp only [List.cons_append, List.length_cons, List.insertIdx_succ_cons,
        insertIdx_eq_append x l1 l2]

/-- C7: the seed rule's three-way case split, on any non-empty series.  An
absent timestamp compares as "not after" the start (the JS comparison
`timestamp > start` is false for `undefined`). -/
theorem C7_addFirstBalance_cases (l : List Item) (s : Nat) (hne : l ≠ []) :
    ((∀ it ∈ l, (s : WithBot Nat) < tsKey it) →
        addFirstBalance l s = ⟨some s, 0, 0⟩ :: l) ∧
      ((∀ it ∈ l, tsKey it ≤ (s : WithBot Nat)) →
        ∀ last, l.getLast? = some last →
          addFirstBalance l s = l ++ [{ last with timestamp := some s }]) ∧
      (∀ l1 x l2, l = l1 ++ x :: l2 → (∀ y ∈ l1 ++ [x], tsKey y ≤ (s : WithBot Nat)) →
        (∀ y ∈ l2, (s : WithBot Nat) < tsKey y) → l2 ≠ [] →
        addFirstBalance l s = l1 ++ x :: ({ x with timestamp := some s }) :: l2) := by
  refine ⟨?_, ?_, ?_⟩
  · intro hall
    cases l with
    | nil => exact absurd rfl hne
    | cons a l2 =>
        have hfi : jsFindIndex (fun it => decide ((s : WithBot Nat) < tsKey it)) (a :: l2) =
            some 0 := by
          rw [jsFindIndex, if_pos (by simp [hall a (List.mem_cons_self _ _)])]
        rw [addFirstBalance, hfi]
  · intro hall last hlast
    have hfi : jsFindIndex (fun it => decide ((s : WithBot Nat) < tsKey it)) l = none := by
      rw [jsFindIndex_eq_none]
      intro x hx
      simp only [decide_eq_false_iff_not, not_lt]
      exact hall x hx
    rw [addFirstBalance, hfi, hlast]
  · intro l1 x l2 hsplit hball hafter hl2ne
    cases hl2 : l2 with
    | nil => exact absurd hl2 hl2ne
    | cons z l3 =>
        subst hl2
        have hfi : jsFindIndex (fun it => decide ((s : WithBot Nat) < tsKey it)) l =
            some (l1.length + 1) := by
          rw [hsplit, show l1 ++ x :: z :: l3 = (l1 ++ [x]) ++ z :: l3 by simp,
            jsFindIndex_append_false _ (l1 ++ [x]) (z :: l3)
              (by
                intro y hy
                simp only [decide_eq_false_iff_not, not_lt]
                exact hball y hy)]
          rw [jsFindIndex, if_pos (by simp [hafter z (List.mem_cons_self _ _)])]
          simp only [Option.map_some', List.length_append, List.length_cons,
            List.length_nil]
          congr 1
          omega
        have hget : l[l1.length]? = some x := by
          rw [hsplit, List.getElem?_append_right (Nat.le_refl _)]
          simp
        rw [addFirstBalance, hfi]
        show List.insertIdx (l1.length + 1)
            { l.getD l1.length default with timestamp := some s } l =
          l1 ++ x :: ({ x with timestamp := some s }) :: z :: l3
        rw [List.getD_eq_getElem?_getD, hget, Option.getD_some]
        rw [hsplit, show l1 ++ x :: z :: l3 = (l1 ++ [x]) ++ z :: l3 by simp,
          show l1.length + 1 = (l1 ++ [x]).length by simp,
          insertIdx_eq_append _ (l1 ++ [x]) (z :: l3)]
        simp

theorem C7_addFirstBalance_cases_witness :
    ((∀ it ∈ ([⟨none, 7, 1⟩, ⟨some 10, 2, 3⟩] : List Item),
          ((5 : Nat) : WithBot Nat) < tsKey it) →
        addFirstBalance [⟨none, 7, 1⟩, ⟨some 10, 2, 3⟩] 5 =
          ⟨some 5, 0, 0⟩ :: [⟨none, 7, 1⟩, ⟨some 10, 2, 3⟩]) ∧
      ((∀ it ∈ ([⟨none, 7, 1⟩, ⟨some 10, 2, 3⟩] : List Item),
          tsKey it ≤ ((5 : Nat) : WithBot Nat)) →
        ∀ last, ([⟨none, 7, 1⟩, ⟨some 10, 2, 3⟩] : List Item).getLast? = some last →
          addFirstBalance [⟨none, 7, 1⟩, ⟨some 10, 2, 3⟩] 5 =
            [⟨none, 7, 1⟩, ⟨some 10, 2, 3⟩] ++ [{ last with timestamp := some 5 }]) ∧
      (∀ l1 x l2, ([⟨none, 7, 1⟩, ⟨some 10, 2, 3⟩] : List Item) = l1 ++ x :: l2 →
        (∀ y ∈ l1 ++ [x], tsKey y ≤ ((5 : Nat) : WithBot Nat)) →
        (∀ y ∈ l2, ((5 : Nat) : WithBot Nat) < tsKey y) → l2 ≠ [] →
        addFirstBalance [⟨none, 7, 1⟩, ⟨some 10, 2, 3⟩] 5 =
          l1 ++ x :: ({ x with timestamp := some 5 }) :: l2) :=
  C7_addFirstBalance_cases [⟨none, 7, 1⟩, ⟨some 10, 2, 3⟩] 5 (by simp)

theorem runningSamples_append (t : Txn) :
    ∀ (acc : Int) (l : List Txn), runningSamples acc (l ++ [t]) =
      runningSamples acc l ++ [⟨t.blockNumber, acc + sumAmounts l + t.netAmount⟩]
  | acc, [] => by simp [runningSamples, sumAmounts]
  | acc, u :: l => by
      rw [List.cons_append, runningSamples, runningSamples,
        runningSamples_append t (acc + u.netAmount) l]
      rw [show acc + u.netAmount + sumAmounts l + t.netAmount
          = acc + sumAmounts (u :: l) + t.netAmount by
        rw [sumAmounts, sumAmounts, List.map_cons, List.sum_cons]
        ring]
      simp

theorem getLast?_cons_of_ne_nil {α : Type} (a : α) (l : List α) (h : l ≠ []) :
    (a :: l).getLast? = l.getLast? := by
  cases l with
  | nil => exact absurd rfl h
  | cons b m => rfl

theorem runningSamples_eq_nil_iff (acc : Int) (l : List Txn) :
    runningSamples acc l = [] ↔ l = [] := by
  cases l with
  | nil => simp [runningSamples]
  | cons t rest => simp [runningSamples]

theorem runningSamples_getLast (l : List Txn) : ∀ acc : Int, l ≠ [] →
    ∃ last, (runningSamples acc l).getLast? = some last ∧
      last.rawBalance = acc + sumAmounts l := by
  induction l with
  | nil => intro acc h; exact absurd rfl h
  | cons t rest ih =>
      intro acc _
      cases hr : rest with
      | nil =>
          subst hr
          exact ⟨⟨t.blockNumber, acc + t.netAmount⟩, by simp [runningSamples],
            by simp [sumAmounts]⟩
      | cons u rest2 =>
          subst hr
          obtain ⟨last, hl1, hl2⟩ := ih (acc + t.netAmount) (by simp)
          refine ⟨last, ?_, ?_⟩
          · rw [show runningSamples acc (t :: u :: rest2)
                = ⟨t.blockNumber, acc + t.netAmount⟩ ::
                  runningSamples (acc + t.netAmount) (u :: rest2) from rfl,
              getLast?_cons_of_ne_nil _ _ (by simp [runningSamples_eq_nil_iff])]
            exact hl1
          · rw [hl2]
            simp only [sumAmounts, List.map_cons, List.sum_cons]
            ring

/-- The per-token reconstruction of `buildBalances` is exactly the running
cumulative sum of that token's transactions. -/
theorem buildBalances_eq_runningSamples (txns : List Txn) :
    ∀ tok : Nat, buildBalances txns tok =
      runningSamples 0 (txns.filter (fun t => decide (t.token = tok))) := by
  induction txns using List.reverseRecOn with
  | nil => intro tok; simp [buildBalances, runningSamples]
  | append_singleton txns t ih =>
      intro tok
      rw [buildBalances, List.foldl_append, List.foldl_cons, List.foldl_nil, ← buildBalances]
      rw [List.filter_append]
      by_cases htok : tok = t.token
      · rw [if_pos htok]
        have hfu : List.filter (fun u => decide (u.token = tok)) [t] = [t] := by
          simp [htok.symm]
        rw [hfu]
        rw [ih t.token, ← htok]
        cases hlast : (runningSamples 0 (txns.filter (fun u => decide (u.token = tok)))).getLast?
          with
        | none =>
            have hflt : txns.filter (fun u => decide (u.token = tok)) = [] := by
              rw [← runningSamples_eq_nil_iff 0]
              exact List.getLast?_eq_none_iff.mp hlast
            rw [hflt]
            simp [runningSamples]
        | some prev =>
            have hne : txns.filter (fun u => decide (u.token = tok)) ≠ [] := by
              intro h0
              rw [h0] at hlast
              simp [runningSamples] at hlast
            obtain ⟨last, hl1, hl2⟩ :=
              runningSamples_getLast (txns.filter (fun u => decide (u.token = tok))) 0 hne
            rw [hlast] at hl1
            cases hl1
            rw [runningSamples_append]
            dsimp only
            rw [hl2]
      · rw [if_neg htok]
        have hfu : List.filter (fun u => decide (u.token = tok)) [t] = [] := by
          simp
          intro h
          exact absurd h.symm htok
        rw [hfu, List.append_nil]
        exact ih tok

theorem runningSamples_getElem (l : List Txn) : ∀ (acc : Int) (k : Nat) (smp : RawSample),
    (runningSamples acc l)[k]? = some smp →
    smp.rawBalance = acc + sumAmounts (l.take (k + 1)) := by
  induction l with
  | nil => intro acc k smp h; simp [runningSamples] at h
  | cons t rest ih =>
      intro acc k smp h
      rw [show runningSamples acc (t :: rest) = ⟨t.blockNumber, acc + t.netAmount⟩ ::
          runningSamples (acc + t.netAmount) rest from rfl] at h
      cases k with
      | zero =>
          simp only [List.getElem?_cons_zero, Option.some.injEq] at h
          rw [← h]
          simp [sumAmounts]
      | succ k =>
          simp only [List.getElem?_cons_succ] at h
          rw [ih (acc + t.netAmount) k smp h, List.take_succ_cons]
          simp only [sumAmounts, List.map_cons, List.sum_cons]
          ring

/-- C9: per asset, the sample at index k of the reconstructed series has
`rawBalance` equal to the sum of the first k+1 signed amounts of that
asset's transactions (indices are 0-based), and in particular the final
sample's `rawBalance` is the exact sum of all of the asset's signed
deltas. -/
theorem C9_rawBalance_running_sum (txns : List Txn) (tok : Nat)
    (_hsorted : txns.Pairwise (fun a b => a.blockNumber ≤ b.blockNumber)) :
    (∀ (k : Nat) (smp : RawSample), (buildBalances txns tok)[k]? = some smp →
        smp.rawBalance =
          sumAmounts ((txns.filter (fun t => decide (t.token = tok))).take (k + 1))) ∧
      ∀ last, (buildBalances txns tok).getLast? = some last →
        last.rawBalance = sumAmounts (txns.filter (fun t => decide (t.token = tok))) := by
  have heq := buildBalances_eq_runningSamples txns tok
  constructor
  · intro k smp hk
    rw [heq] at hk
    rw [runningSamples_getElem _ 0 k smp hk]
    exact zero_add _
  · intro last hlast
    rw [heq] at hlast
    by_cases hflt : txns.filter (fun t => decide (t.token = tok)) = []
    · rw [hflt] at hlast
      simp [runningSamples] at hlast
    · obtain ⟨last2, hl1, hl2⟩ :=
        runningSamples_getLast (txns.filter (fun t => decide (t.token = tok))) 0 hflt
      rw [hlast] at hl1
      cases hl1
      rw [hl2]
      exact zero_add _

theorem C9_rawBalance_running_sum_witness :
    (∀ (k : Nat) (smp : RawSample),
        (buildBalances [⟨0, 5, 100⟩, ⟨1, 7, 101⟩, ⟨0, -2, 102⟩] 0)[k]? = some smp →
        smp.rawBalance =
          sumAmounts ((([⟨0, 5, 100⟩, ⟨1, 7, 101⟩, ⟨0, -2, 102⟩] : List Txn).filter
            (fun t => decide (t.token = 0))).take (k + 1))) ∧
      ∀ last, (buildBalances [⟨0, 5, 100⟩, ⟨1, 7, 101⟩, ⟨0, -2, 102⟩] 0).getLast? =
          some last →
        last.rawBalance = sumAmounts (([⟨0, 5, 100⟩, ⟨1, 7, 101⟩, ⟨0, -2, 102⟩] :
          List Txn).filter (fun t => decide (t.token = 0))) :=
  C9_rawBalance_running_sum [⟨0, 5, 100⟩, ⟨1, 7, 101⟩, ⟨0, -2, 102⟩] 0 (by decide)

theorem mem_stableInsert (x z : CombEntry) :
    ∀ acc : List CombEntry, z ∈ stableInsert x acc ↔ z = x ∨ z ∈ acc
  | [] => by simp [stableInsert]
  | y :: ys => by
      rw [stableInsert]
      by_cases hc : y.timestamp ≤ x.timestamp
      · rw [if_pos hc]
        simp only [List.mem_cons, mem_stableInsert x z ys]
        tauto
      · rw [if_neg hc]
        simp only [List.mem_cons]

theorem stableInsert_sorted (x : CombEntry) :
    ∀ acc : List CombEntry, acc.Pairwise (fun a b => a.timestamp ≤ b.timestamp) →
      (stableInsert x acc).Pairwise (fun a b => a.timestamp ≤ b.timestamp)
  | [] => by simp [stableInsert]
  | y :: ys => by
      intro hs
      obtain ⟨hy, hys⟩ := List.pairwise_cons.mp hs
      rw [stableInsert]
      by_cases hc : y.timestamp ≤ x.timestamp
      · rw [if_pos hc]
        refine List.pairwise_cons.mpr ⟨?_, stableInsert_sorted x ys hys⟩
        intro z hz
        rcases (mem_stableInsert x z ys).mp hz with rfl | hz
        · exact hc
        · exact hy z hz
      · rw [if_neg hc]
        refine List.pairwise_cons.mpr ⟨?_, hs⟩
        intro z hz
        rcases List.mem_cons.mp hz with rfl | hz
        · omega
        · exact Nat.le_trans (by omega) (hy z hz)

theorem filter_stableInsert_neg (p : CombEntry → Bool) (x : CombEntry) (hx : p x = false) :
    ∀ acc : List CombEntry, (stableInsert x acc).filter p = acc.filter p
  | [] => by simp [stableInsert, List.filter_cons, hx]
  | y :: ys => by
      rw [stableInsert]
      by_cases hc : y.timestamp ≤ x.timestamp
      · rw [if_pos hc, List.filter_cons, List.filter_cons,
          filter_stableInsert_neg p x hx ys]
      · rw [if_neg hc, List.filter_cons, hx]
        simp

theorem filter_stableInsert_pos (p : CombEntry → Bool) (x : CombEntry) (hx : p x = true) :
    ∀ acc : List CombEntry, acc.Pairwise (fun a b => a.timestamp ≤ b.timestamp) →
      (∀ z ∈ acc, p z = true → z.timestamp ≤ x.timestamp) →
      (stableInsert x acc).filter p = acc.filter p ++ [x]
  | [] => by simp [stableInsert, List.filter_cons, hx]
  | y :: ys => by
      intro hs hmax
      obtain ⟨hy, hys⟩ := List.pairwise_cons.mp hs
      rw [stableInsert]
      by_cases hc : y.timestamp ≤ x.timestamp
      · rw [if_pos hc, List.filter_cons, List.filter_cons,
          filter_stableInsert_pos p x hx ys hys
            (fun z hz hp => hmax z (List.mem_cons_of_mem y hz) hp)]
        by_cases hpy : p y
        · simp [hpy]
        · simp [hpy]
      · rw [if_neg hc]
        have hnil : (y :: ys).filter p = [] := by
          apply List.filter_eq_nil_iff.mpr
          intro z hz
          intro hpz
          have h1 := hmax z hz hpz
          have h2 : y.timestamp ≤ z.timestamp := by
            rcases List.mem_cons.mp hz with rfl | hz2
            · exact Nat.le_refl _
            · exact hy z hz2
          omega
        rw [List.filter_cons, hx, hnil]
        simp only [List.filter_cons]
        rw [show ((y :: ys).filter p) = [] from hnil] at *
        simp [hnil]

theorem foldl_stableInsert_filter (p : CombEntry → Bool) :
    ∀ (l acc : List CombEntry),
      acc.Pairwise (fun a b => a.timestamp ≤ b.timestamp) →
      (acc.filter p ++ l.filter p).Pairwise (fun a b => a.timestamp ≤ b.timestamp) →
      (l.foldl (fun acc2 x => stableInsert x acc2) acc).filter p =
        acc.filter p ++ l.filter p
  | [], acc => by intro _ _; simp
  | x :: l, acc => by
      intro hacc hmono
      rw [List.foldl_cons]
      by_cases hx : p x
      · rw [List.filter_cons, if_pos hx] at hmono ⊢
        have hcross := (List.pairwise_append.mp hmono).2.2
        have hmax : ∀ z ∈ acc, p z = true → z.timestamp ≤ x.timestamp := fun z hz hpz =>
          hcross z (List.mem_filter.mpr ⟨hz, hpz⟩) x (List.mem_cons_self _ _)
        have hm2 : ((stableInsert x acc).filter p ++ l.filter p).Pairwise
            (fun a b => a.timestamp ≤ b.timestamp) := by
          rw [filter_stableInsert_pos p x hx acc hacc hmax, List.append_assoc]
          simpa using hmono
        rw [foldl_stableInsert_filter p l (stableInsert x acc)
          (stableInsert_sorted x acc hacc) hm2,
          filter_stableInsert_pos p x hx acc hacc hmax, List.append_assoc]
        simp
      · have hxf : p x = false := by simpa using hx
        rw [List.filter_cons, if_neg hx] at hmono ⊢
        have hm2 : ((stableInsert x acc).filter p ++ l.filter p).Pairwise
            (fun a b => a.timestamp ≤ b.timestamp) := by
          rw [filter_stableInsert_neg p x hxf acc]
          exact hmono
        rw [foldl_stableInsert_filter p l (stableInsert x acc)
          (stableInsert_sorted x acc hacc) hm2, filter_stableInsert_neg p x hxf acc]

theorem sortByTimestamp_sorted (l : List CombEntry) :
    (sortByTimestamp l).Pairwise (fun a b => a.timestamp ≤ b.timestamp) := by
  rw [sortByTimestamp]
  suffices h : ∀ (m acc : List CombEntry),
      acc.Pairwise (fun a b => a.timestamp ≤ b.timestamp) →
      (m.foldl (fun acc2 x => stableInsert x acc2) acc).Pairwise
        (fun a b => a.timestamp ≤ b.timestamp) by
    exact h l [] (by simp)
  intro m
  induction m with
  | nil => intro acc h; simpa using h
  | cons x m ih =>
      intro acc h
      rw [List.foldl_cons]
      exact ih _ (stableInsert_sorted x acc h)

theorem mem_sortByTimestamp (l : List CombEntry) (z : CombEntry) :
    z ∈ sortByTimestamp l ↔ z ∈ l := by
  rw [sortByTimestamp]
  suffices h : ∀ (m acc : List CombEntry),
      z ∈ m.foldl (fun acc2 x => stableInsert x acc2) acc ↔ z ∈ acc ∨ z ∈ m by
    rw [h l []]
    simp
  intro m
  induction m with
  | nil => intro acc; simp
  | cons x m ih =>
      intro acc
      rw [List.foldl_cons, ih (stableInsert x acc), mem_stableInsert]
      simp only [List.mem_cons]
      tauto

theorem filter_sortByTimestamp (p : CombEntry → Bool) (l : List CombEntry)
    (hmono : (l.filter p).Pairwise (fun a b => a.timestamp ≤ b.timestamp)) :
    (sortByTimestamp l).filter p = l.filter p := by
  rw [sortByTimestamp]
  have h := foldl_stableInsert_filter p l [] (by simp) (by simpa using hmono)
  simpa using h

theorem collectAsset_mem (fromT tok : Nat) :
    ∀ (items : List Item) (prev : Option Item) (u : CombEntry),
      u ∈ collectAsset fromT tok prev items →
      u.token = tok ∧ ∃ it ∈ items, it.timestamp = some u.timestamp
  | [], prev, u => by intro h; simp [collectAsset] at h
  | it :: rest, prev, u => by
      intro h
      cases hts : it.timestamp with
      | none =>
          simp only [collectAsset, hts] at h
          obtain ⟨htok, it2, hit2, hts2⟩ := collectAsset_mem fromT tok rest (some it) u h
          exact ⟨htok, it2, List.mem_cons_of_mem it hit2, hts2⟩
      | some t =>
          simp only [collectAsset, hts] at h
          by_cases hc : t ≠ 0 ∧ fromT ≤ t
          · rw [if_pos hc] at h
            rcases List.mem_cons.mp h with rfl | h
            · exact ⟨rfl, it, List.mem_cons_self _ _, by rw [hts]⟩
            · obtain ⟨htok, it2, hit2, hts2⟩ := collectAsset_mem fromT tok rest (some it) u h
              exact ⟨htok, it2, List.mem_cons_of_mem it hit2, hts2⟩
          · rw [if_neg hc] at h
            obtain ⟨htok, it2, hit2, hts2⟩ := collectAsset_mem fromT tok rest (some it) u h
            exact ⟨htok, it2, List.mem_cons_of_mem it hit2, hts2⟩

theorem collectAsset_ts_sorted (fromT tok : Nat) :
    ∀ (items : List Item) (prev : Option Item),
      items.Pairwise (fun a b => tsKey a ≤ tsKey b) →
      (collectAsset fromT tok prev items).Pairwise (fun a b => a.timestamp ≤ b.timestamp)
  | [], prev => by intro _; simp [collectAsset]
  | it :: rest, prev => by
      intro hsorted
      obtain ⟨hh, hrest⟩ := List.pairwise_cons.mp hsorted
      cases hts : it.timestamp with
      | none =>
          simp only [collectAsset, hts]
          exact collectAsset_ts_sorted fromT tok rest (some it) hrest
      | some t =>
          simp only [collectAsset, hts]
          by_cases hc : t ≠ 0 ∧ fromT ≤ t
          · rw [if_pos hc]
            refine List.pairwise_cons.mpr ⟨?_, collectAsset_ts_sorted fromT tok rest (some it) hrest⟩
            intro u hu
            obtain ⟨_, it2, hit2, hts2⟩ := collectAsset_mem fromT tok rest (some it) u hu
            have hle : tsKey it ≤ tsKey it2 := hh it2 hit2
            rw [tsKey, tsKey, hts, hts2] at hle
            exact WithBot.coe_le_coe.mp hle
          · rw [if_neg hc]
            exact collectAsset_ts_sorted fromT tok rest (some it) hrest

theorem collectAsset_chained (fromT tok : Nat) (hpos : 0 < fromT) :
    ∀ (items : List Item) (prev : Option Item),
      items.Pairwise (fun a b => tsKey a ≤ tsKey b) →
      (∀ p, prev = some p → ∀ it2 ∈ items, tsKey p ≤ tsKey it2) →
      Chained (pvStart fromT prev) (collectAsset fromT tok prev items)
  | [], prev => by intro _ _; simp [collectAsset, Chained]
  | it :: rest, prev => by
      intro hsorted hprev
      obtain ⟨hh, hrest⟩ := List.pairwise_cons.mp hsorted
      have hnext : ∀ p, some it = some p → ∀ it2 ∈ rest, tsKey p ≤ tsKey it2 := by
        intro p hp it2 hit2
        cases hp
        exact hh it2 hit2
      have hrec := collectAsset_chained fromT tok hpos rest (some it) hrest hnext
      cases hts : it.timestamp with
      | none =>
          simp only [collectAsset, hts]
          have hitbot : tsKey it = ⊥ := by rw [tsKey, hts]
          have hpv : pvStart fromT (some it) = 0 := by
            rw [pvStart, if_neg]
            rw [hitbot]
            simp
          have hpv0 : pvStart fromT prev = 0 := by
            cases prev with
            | none => rfl
            | some p =>
                have hple := hprev p rfl it (List.mem_cons_self _ _)
                rw [hitbot, le_bot_iff] at hple
                rw [pvStart, if_neg]
                rw [hple]
                simp
          rw [hpv0]
          rw [hpv] at hrec
          exact hrec
      | some t =>
          have hkey : tsKey it = (t : WithBot Nat) := by simp [tsKey, hts]
          by_cases hc : t ≠ 0 ∧ fromT ≤ t
          · simp only [collectAsset, hts, if_pos hc]
            have hitval : pvStart fromT (some it) = it.value := by
              rw [pvStart, if_pos]
              rw [hkey]
              exact_mod_cast hc.2
            constructor
            · cases prev with
              | none => rfl
              | some p => rfl
            · rw [hitval] at hrec
              exact hrec
          · simp only [collectAsset, hts, if_neg hc]
            have hpv : pvStart fromT (some it) = 0 := by
              rw [pvStart, if_neg]
              rw [hkey]
              intro hle
              have h2 : fromT ≤ t := by exact_mod_cast hle
              exact hc ⟨by omega, h2⟩
            have hpv0 : pvStart fromT prev = 0 := by
              cases prev with
              | none => rfl
              | some p =>
                  have hple := hprev p rfl it (List.mem_cons_self _ _)
                  rw [pvStart, if_neg]
                  intro hlep
                  have h2 : (fromT : WithBot Nat) ≤ tsKey it := le_trans hlep hple
                  rw [hkey] at h2
                  have h3 : fromT ≤ t := by exact_mod_cast h2
                  exact hc ⟨by omega, h3⟩
            rw [hpv0]
            rw [hpv] at hrec
            exact hrec

theorem collectAll_token_bounds (fromT : Nat) :
    ∀ (idx : Nat) (ls : List (List Item)) (u : CombEntry),
      u ∈ collectAll fromT idx ls → idx ≤ u.token ∧ u.token < idx + ls.length
  | idx, [], u => by intro h; simp [collectAll] at h
  | idx, l :: ls, u => by
      intro h
      rw [collectAll] at h
      rcases List.mem_append.mp h with h | h
      · have htok := (collectAsset_mem fromT idx l none u h).1
        rw [htok]
        simp only [List.length_cons]
        omega
      · have hb := collectAll_token_bounds fromT (idx + 1) ls u h
        simp only [List.length_cons]
        omega

theorem collectAll_filter_token (fromT : Nat) (hpos : 0 < fromT) :
    ∀ (idx : Nat) (ls : List (List Item)) (tok2 : Nat),
      (∀ l ∈ ls, l.Pairwise (fun a b => tsKey a ≤ tsKey b)) →
      Chained 0 ((collectAll fromT idx ls).filter (fun u => u.token == tok2)) ∧
        ((collectAll fromT idx ls).filter (fun u => u.token == tok2)).Pairwise
          (fun a b => a.timestamp ≤ b.timestamp)
  | idx, [], tok2 => by
      intro _
      constructor
      · simp only [collectAll, List.filter_nil]
        exact trivial
      · simp [collectAll]
  | idx, l :: ls, tok2 => by
      intro hall
      rw [collectAll, List.filter_append]
      by_cases htok : tok2 = idx
      · subst htok
        have hfa : (collectAsset fromT tok2 none l).filter (fun u => u.token == tok2) =
            collectAsset fromT tok2 none l := by
          apply List.filter_eq_self.mpr
          intro u hu
          simp [(collectAsset_mem fromT tok2 l none u hu).1]
        have hfb : (collectAll fromT (tok2 + 1) ls).filter (fun u => u.token == tok2) = [] := by
          apply List.filter_eq_nil_iff.mpr
          intro u hu
          have hb := collectAll_token_bounds fromT (tok2 + 1) ls u hu
          simp only [beq_iff_eq, decide_eq_true_eq]
          omega
        rw [hfa, hfb, List.append_nil]
        constructor
        · have hch := collectAsset_chained fromT tok2 hpos l none
            (hall l (List.mem_cons_self _ _)) (by intro p hp; cases hp)
          exact hch
        · exact collectAsset_ts_sorted fromT tok2 l none (hall l (List.mem_cons_self _ _))
      · have hfa : (collectAsset fromT idx none l).filter (fun u => u.token == tok2) = [] := by
          apply List.filter_eq_nil_iff.mpr
          intro u hu
          have htoku := (collectAsset_mem fromT idx l none u hu).1
          simp only [beq_iff_eq, decide_eq_true_eq]
          omega
        rw [hfa, List.nil_append]
        exact collectAll_filter_token fromT hpos (idx + 1) ls tok2
          (fun l2 hl2 => hall l2 (List.mem_cons_of_mem l hl2))

theorem latestValue_append_single (tok : Nat) (P : List CombEntry) (u : CombEntry) :
    latestValue tok (P ++ [u]) = if u.token = tok then u.value else latestValue tok P := by
  by_cases h : u.token = tok
  · rw [if_pos h, latestValue, List.filter_append,
      show List.filter (fun t2 => t2.token == tok) [u] = [u] by simp [h],
      List.getLast?_concat]
  · rw [if_neg h, latestValue, latestValue, List.filter_append,
      show List.filter (fun t2 => t2.token == tok) [u] = [] by simp [h],
      List.append_nil]

theorem latestValue_nil (tok : Nat) : latestValue tok [] = 0 := rfl

theorem naiveTotal_nil (n : Nat) : naiveTotal n [] = 0 := by
  simp [naiveTotal, latestValue_nil]

theorem naiveTotal_append (n : Nat) (P : List CombEntry) (u : CombEntry) (hu : u.token < n) :
    naiveTotal n (P ++ [u]) = naiveTotal n P + u.value - latestValue u.token P := by
  have humem : u.token ∈ Finset.range n := Finset.mem_range.mpr hu
  rw [naiveTotal, naiveTotal]
  rw [Finset.sum_congr rfl
    (fun tok _ => latestValue_append_single tok P u)]
  rw [Finset.sum_eq_sum_diff_singleton_add humem
    (fun tok => if u.token = tok then u.value else latestValue tok P)]
  rw [Finset.sum_eq_sum_diff_singleton_add humem (fun tok => latestValue tok P)]
  rw [if_pos rfl]
  have hcong : ∀ tok ∈ Finset.range n \ {u.token},
      (if u.token = tok then u.value else latestValue tok P) = latestValue tok P := by
    intro tok htok
    rw [if_neg]
    intro heq
    rw [Finset.mem_sdiff, Finset.mem_singleton] at htok
    exact htok.2 heq.symm
  rw [Finset.sum_congr rfl hcong]
  ring

theorem chained_split (u : CombEntry) (l2 : List CombEntry) :
    ∀ (l1 : List CombEntry) (pv0 : Rat), Chained pv0 (l1 ++ u :: l2) →
      u.previousValue = (match l1.getLast? with
        | none => pv0
        | some y => y.value)
  | [], pv0 => by
      intro h
      exact h.1
  | y :: l1, pv0 => by
      intro h
      have hrec := chained_split u l2 l1 y.value h.2
      rw [hrec]
      cases l1 with
      | nil => rfl
      | cons a m =>
          cases hg : (a :: m).getLast? with
          | none =>
              rw [List.getLast?_eq_none_iff] at hg
              cases hg
          | some z =>
              have h2 : (y :: a :: m).getLast? = some z := hg
              rw [h2]

theorem pairwise_rel_getLast {α : Type} {R : α → α → Prop} (hrefl : ∀ a : α, R a a) :
    ∀ (l : List α) (last : α), l.Pairwise R → l.getLast? = some last →
      ∀ x ∈ l, R x last
  | [], last => by intro _ h; cases h
  | a :: m, last => by
      intro hp hg x hx
      cases hm : m with
      | nil =>
          subst hm
          have ha : a = last := by
            have h1 : ([a] : List α).getLast? = some a := rfl
            rw [h1] at hg
            exact Option.some.inj hg
          rcases List.mem_singleton.mp hx with rfl
          rw [← ha]
          exact hrefl x
      | cons b m2 =>
          subst hm
          have hg2 : (b :: m2).getLast? = some last := hg
          have hlastmem : last ∈ b :: m2 := List.mem_of_mem_getLast? hg2
          rcases List.mem_cons.mp hx with rfl | hx2
          · exact (List.pairwise_cons.mp hp).1 last hlastmem
          · exact pairwise_rel_getLast hrefl (b :: m2) last (List.pairwise_cons.mp hp).2 hg2 x hx2

theorem dropLast_lt_getLast (A : List TotalEntry) (lastA : TotalEntry)
    (hs : A.Pairwise (fun a b => a.timestamp < b.timestamp))
    (hg : A.getLast? = some lastA) :
    ∀ e ∈ A.dropLast, e.timestamp < lastA.timestamp := by
  have hne : A ≠ [] := by intro h; rw [h] at hg; cases hg
  have hlasteq : A.getLast hne = lastA := by
    have h1 := List.getLast?_eq_getLast A hne
    rw [h1] at hg
    exact Option.some.inj hg
  have hdecomp : A.dropLast ++ [A.getLast hne] = A := List.dropLast_concat_getLast hne
  intro e he
  rw [← hdecomp] at hs
  have hr := (List.pairwise_append.mp hs).2.2 e he (A.getLast hne) (by simp)
  rw [hlasteq] at hr
  exact hr

theorem mem_le_getLast (A : List TotalEntry) (lastA : TotalEntry)
    (hs : A.Pairwise (fun a b => a.timestamp < b.timestamp))
    (hg : A.getLast? = some lastA) :
    ∀ e ∈ A, e.timestamp ≤ lastA.timestamp := by
  have hne : A ≠ [] := by intro h; rw [h] at hg; cases hg
  have hlasteq : A.getLast hne = lastA := by
    have h1 := List.getLast?_eq_getLast A hne
    rw [h1] at hg
    exact Option.some.inj hg
  have hdecomp : A.dropLast ++ [A.getLast hne] = A := List.dropLast_concat_getLast hne
  intro e he
  rw [← hdecomp] at he
  rcases List.mem_append.mp he with he | he
  · exact Nat.le_of_lt (dropLast_lt_getLast A lastA hs hg e he)
  · rcases List.mem_singleton.mp he with rfl
    rw [hlasteq]

theorem naiveTotal_single (n : Nat) (u : CombEntry) (hu : u.token < n) :
    naiveTotal n [u] = u.value := by
  have h := naiveTotal_append n [] u hu
  simp only [List.nil_append] at h
  rw [h, naiveTotal_nil, latestValue_nil]
  ring

/-- Invariant-carrying correctness of the `Total` fold: walking the sorted,
token-chained tuple stream, every emitted entry's value is the naive
re-summed total over the tuples at/before its timestamp. -/
theorem totalStep_fold_spec (n : Nat) :
    ∀ (R P : List CombEntry) (A : List TotalEntry),
      ((P ++ R).Pairwise fun a b => a.timestamp ≤ b.timestamp) →
      (∀ v ∈ P ++ R, v.token < n) →
      (∀ tok, Chained 0 ((P ++ R).filter (fun v => v.token == tok))) →
      (A.Pairwise fun a b => a.timestamp < b.timestamp) →
      (A = [] → P = []) →
      (P = [] → A = []) →
      (∀ lastA, A.getLast? = some lastA →
        ∃ lastP, P.getLast? = some lastP ∧ lastA.timestamp = lastP.timestamp) →
      (∀ e ∈ A, e.value = naiveTotal n (P.filter fun v => decide (v.timestamp ≤ e.timestamp))) →
      ∀ entry ∈ R.foldl totalStep A,
        entry.value =
          naiveTotal n ((P ++ R).filter fun v => decide (v.timestamp ≤ entry.timestamp))
  | [], P, A => by
      intro _ _ _ _ _ _ _ hval entry hentry
      rw [List.append_nil]
      exact hval entry (by simpa using hentry)
  | u :: R2, P, A => by
      intro hsort htok hch hA hAP hPA hlast hval entry hentry
      rw [List.foldl_cons] at hentry
      rw [show P ++ u :: R2 = (P ++ [u]) ++ R2 by simp]
      have hsort2 : ((P ++ [u]) ++ R2).Pairwise (fun a b => a.timestamp ≤ b.timestamp) := by
        rw [show (P ++ [u]) ++ R2 = P ++ u :: R2 by simp]
        exact hsort
      have htok2 : ∀ v ∈ (P ++ [u]) ++ R2, v.token < n := by
        intro v hv
        apply htok
        rw [show (P ++ [u]) ++ R2 = P ++ u :: R2 by simp] at hv
        exact hv
      have hch2 : ∀ tok, Chained 0 (((P ++ [u]) ++ R2).filter (fun v => v.token == tok)) := by
        intro tok
        rw [show (P ++ [u]) ++ R2 = P ++ u :: R2 by simp]
        exact hch tok
      have hPsorted : P.Pairwise (fun a b => a.timestamp ≤ b.timestamp) :=
        List.Pairwise.sublist (List.sublist_append_left P (u :: R2)) hsort
      have hPu : ∀ p ∈ P, p.timestamp ≤ u.timestamp := fun p hp =>
        (List.pairwise_append.mp hsort).2.2 p hp u (List.mem_cons_self _ _)
      have hutok : u.token < n := htok u (by simp)
      have hupv : u.previousValue = latestValue u.token P := by
        have hc := hch u.token
        rw [List.filter_append] at hc
        rw [show (u :: R2).filter (fun v => v.token == u.token) =
            u :: R2.filter (fun v => v.token == u.token) by
          rw [List.filter_cons]
          simp] at hc
        have hsplit := chained_split u (R2.filter (fun v => v.token == u.token))
          (P.filter (fun v => v.token == u.token)) 0 hc
        rw [hsplit, latestValue]
      rcases A with _ | ⟨a0, A0⟩
      · have hPe : P = [] := hAP rfl
        subst hPe
        have hstep : totalStep [] u = [⟨u.timestamp, u.value⟩] := rfl
        rw [hstep] at hentry
        refine totalStep_fold_spec n R2 ([] ++ [u]) [⟨u.timestamp, u.value⟩] hsort2 htok2 hch2
          (by simp) (fun h => absurd h (by simp)) (fun h => absurd h (by simp)) ?_ ?_
          entry hentry
        · intro lastA hga
          refine ⟨u, by simp, ?_⟩
          have hga2 : some (⟨u.timestamp, u.value⟩ : TotalEntry) = some lastA := hga
          exact congrArg TotalEntry.timestamp (Option.some.inj hga2).symm
        · intro e he
          rcases List.mem_singleton.mp he with rfl
          show u.value = naiveTotal n
            (List.filter (fun v => decide (v.timestamp ≤ u.timestamp)) ([] ++ [u]))
          rw [show List.filter (fun v : CombEntry => decide (v.timestamp ≤ u.timestamp))
              ([] ++ [u]) = [u] by simp]
          rw [naiveTotal_single n u hutok]
      · cases hgl : (a0 :: A0).getLast? with
        | none =>
            rw [List.getLast?_eq_none_iff] at hgl
            cases hgl
        | some lastA =>
            obtain ⟨lastP, hlp1, hts⟩ := hlast lastA hgl
            have hlpmem : lastP ∈ P := List.mem_of_mem_getLast? hlp1
            have hF3 : lastA.timestamp ≤ u.timestamp := by
              have := hPu lastP hlpmem
              omega
            have hmemle := mem_le_getLast (a0 :: A0) lastA hA hgl
            have hPfilter : P.filter (fun v => decide (v.timestamp ≤ lastA.timestamp)) = P := by
              apply List.filter_eq_self.mpr
              intro p hp
              simp only [decide_eq_true_eq]
              have := pairwise_rel_getLast (fun a : CombEntry => Nat.le_refl a.timestamp) P
                lastP hPsorted hlp1 p hp
              omega
            have hF4 : lastA.value = naiveTotal n P := by
              have h := hval lastA (List.mem_of_mem_getLast? hgl)
              rw [hPfilter] at h
              exact h
            have hF5 : lastA.value + u.value - u.previousValue = naiveTotal n (P ++ [u]) := by
              rw [naiveTotal_append n P u hutok, hF4, hupv]
            have hPufilter : (P ++ [u]).filter
                (fun v => decide (v.timestamp ≤ u.timestamp)) = P ++ [u] := by
              apply List.filter_eq_self.mpr
              intro p hp
              simp only [decide_eq_true_eq]
              rcases List.mem_append.mp hp with hp | hp
              · exact hPu p hp
              · rcases List.mem_singleton.mp hp with rfl
                exact Nat.le_refl _
            by_cases hlt : lastA.timestamp < u.timestamp
            · have hstep : totalStep (a0 :: A0) u =
                  (a0 :: A0) ++ [⟨u.timestamp, lastA.value + u.value - u.previousValue⟩] := by
                simp only [totalStep, hgl]
                rw [if_pos hlt]
              rw [hstep] at hentry
              refine totalStep_fold_spec n R2 (P ++ [u])
                ((a0 :: A0) ++ [⟨u.timestamp, lastA.value + u.value - u.previousValue⟩])
                hsort2 htok2 hch2 ?_ (fun h => absurd h (by simp))
                (fun h => absurd h (by simp)) ?_ ?_ entry hentry
              · refine List.pairwise_append.mpr ⟨hA, by simp, ?_⟩
                intro e he e2 he2
                rcases List.mem_singleton.mp he2 with rfl
                have := hmemle e he
                simp only
                omega
              · intro lastA2 hga
                rw [List.getLast?_concat] at hga
                refine ⟨u, List.getLast?_concat P, ?_⟩
                rw [← Option.some.inj hga]
              · intro e he
                rcases List.mem_append.mp he with he | he
                · have hvale := hval e he
                  have helt : e.timestamp < u.timestamp := by
                    have := hmemle e he
                    omega
                  rw [List.filter_append,
                    show [u].filter (fun v => decide (v.timestamp ≤ e.timestamp)) = [] by
                      simp only [List.filter_cons, List.filter_nil, decide_eq_true_eq]
                      rw [if_neg (by omega)],
                    List.append_nil]
                  exact hvale
                · rcases List.mem_singleton.mp he with rfl
                  simp only
                  rw [hPufilter]
                  exact hF5
            · have hEq : u.timestamp = lastA.timestamp := by omega
              have hstep : totalStep (a0 :: A0) u =
                  (a0 :: A0).dropLast ++
                    [⟨lastA.timestamp, lastA.value + u.value - u.previousValue⟩] := by
                simp only [totalStep, hgl]
                rw [if_neg hlt]
              rw [hstep] at hentry
              have hdroplt := dropLast_lt_getLast (a0 :: A0) lastA hA hgl
              refine totalStep_fold_spec n R2 (P ++ [u])
                ((a0 :: A0).dropLast ++
                  [⟨lastA.timestamp, lastA.value + u.value - u.previousValue⟩])
                hsort2 htok2 hch2 ?_ (fun h => absurd h (by simp))
                (fun h => absurd h (by simp)) ?_ ?_ entry hentry
              · refine List.pairwise_append.mpr
                  ⟨List.Pairwise.sublist (List.dropLast_sublist _) hA, by simp, ?_⟩
                intro e he e2 he2
                rcases List.mem_singleton.mp he2 with rfl
                exact hdroplt e he
              · intro lastA2 hga
                rw [List.getLast?_concat] at hga
                refine ⟨u, List.getLast?_concat P, ?_⟩
                rw [← Option.some.inj hga, ← hEq]
              · intro e he
                rcases List.mem_append.mp he with he | he
                · have hvale := hval e (List.mem_of_mem_dropLast he)
                  have helt : e.timestamp < u.timestamp := by
                    have := hdroplt e he
                    omega
                  rw [List.filter_append,
                    show [u].filter (fun v => decide (v.timestamp ≤ e.timestamp)) = [] by
                      simp only [List.filter_cons, List.filter_nil, decide_eq_true_eq]
                      rw [if_neg (by omega)],
                    List.append_nil]
                  exact hvale
                · rcases List.mem_singleton.mp he with rfl
                  simp only
                  rw [show (fun v => decide (v.timestamp ≤ lastA.timestamp)) =
                      (fun v : CombEntry => decide (v.timestamp ≤ u.timestamp)) by
                    rw [hEq]]
                  rw [hPufilter]
                  exact hF5

/-- C8 (amended): with a positive range start, every entry of the
delta-propagation `Total` series carries, at its timestamp, exactly the
naive reference total — the sum over all assets of the latest value emitted
at or before that timestamp (unseen assets counting 0). -/
theorem C8_total_refines_naive (fromT : Nat) (seriesList : List (List Item))
    (hpos : 0 < fromT)
    (hsorted : ∀ l ∈ seriesList, l.Pairwise (fun a b => tsKey a ≤ tsKey b)) :
    ∀ entry ∈ totalSeries fromT seriesList,
      entry.value = naiveTotal seriesList.length
        ((sortByTimestamp (collectAll fromT 0 seriesList)).filter
          (fun v => decide (v.timestamp ≤ entry.timestamp))) := by
  intro entry hentry
  have hSsorted : (sortByTimestamp (collectAll fromT 0 seriesList)).Pairwise
      (fun a b => a.timestamp ≤ b.timestamp) := sortByTimestamp_sorted _
  have hStok : ∀ v ∈ sortByTimestamp (collectAll fromT 0 seriesList),
      v.token < seriesList.length := by
    intro v hv
    rw [mem_sortByTimestamp] at hv
    have := collectAll_token_bounds fromT 0 seriesList v hv
    omega
  have hSch : ∀ tok, Chained 0 ((sortByTimestamp (collectAll fromT 0 seriesList)).filter
      (fun v => v.token == tok)) := by
    intro tok
    obtain ⟨hc, hm⟩ := collectAll_filter_token fromT hpos 0 seriesList tok hsorted
    rw [filter_sortByTimestamp _ _ hm]
    exact hc
  rw [totalSeries] at hentry
  have hmain := totalStep_fold_spec seriesList.length
    (sortByTimestamp (collectAll fromT 0 seriesList)) [] []
    (by simpa using hSsorted) (by simpa using hStok) (by simpa using hSch)
    (by simp) (fun _ => rfl) (fun _ => rfl)
    (by intro lastA h; exact Option.noConfusion h)
    (by intro e he; exact absurd he (List.not_mem_nil e))
    entry hentry
  simpa using hmain

theorem C8_total_refines_naive_witness :
    (5 : Rat) = naiveTotal 2
      ((sortByTimestamp (collectAll 1 0
          [[⟨some 2, 0, 5⟩, ⟨some 10, 0, 7⟩], [⟨some 5, 0, 100⟩]])).filter
        (fun v => decide (v.timestamp ≤ (2 : Nat)))) :=
  C8_total_refines_naive 1 [[⟨some 2, 0, 5⟩, ⟨some 10, 0, 7⟩], [⟨some 5, 0, 100⟩]]
    (by norm_num) (by decide) ⟨2, 5⟩
    (by
      rw [show totalSeries 1 [[⟨some 2, 0, 5⟩, ⟨some 10, 0, 7⟩], [⟨some 5, 0, 100⟩]] =
          [⟨2, 5⟩, ⟨5, 105⟩, ⟨10, 107⟩] by
        norm_num [totalSeries, collectAll, collectAsset, sortByTimestamp, stableInsert,
          totalStep, tsKey, List.foldl]]
      simp)

/-- C8 (counterexample to the claim as stated): with range start 0, asset 0
carrying a sample at timestamp 0 (dropped by the truthiness filter, value 5)
followed by value 7 at timestamp 10, and asset 1 worth 100 at timestamp 5,
the delta fold emits total 102 at timestamp 10 — the tuple for value 7
still references previousValue 5 from the dropped sample — while the naive
re-sum of latest values gives 7 + 100 = 107. -/
theorem C8_counterexample :
    ¬ ∀ entry ∈ totalSeries 0 [[⟨some 0, 0, 5⟩, ⟨some 10, 0, 7⟩], [⟨some 5, 0, 100⟩]],
      entry.value = naiveTotal 2
        ((sortByTimestamp (collectAll 0 0
            [[⟨some 0, 0, 5⟩, ⟨some 10, 0, 7⟩], [⟨some 5, 0, 100⟩]])).filter
          (fun v => decide (v.timestamp ≤ entry.timestamp))) := by
  intro h
  have htot : totalSeries 0 [[⟨some 0, 0, 5⟩, ⟨some 10, 0, 7⟩], [⟨some 5, 0, 100⟩]] =
      [⟨5, 100⟩, ⟨10, 102⟩] := by
    norm_num [totalSeries, collectAll, collectAsset, sortByTimestamp, stableInsert, totalStep,
      tsKey, List.foldl]
  have hnaive : naiveTotal 2 ((sortByTimestamp (collectAll 0 0
        [[⟨some 0, 0, 5⟩, ⟨some 10, 0, 7⟩], [⟨some 5, 0, 100⟩]])).filter
      (fun v => decide (v.timestamp ≤ 10))) = 107 := by
    norm_num [naiveTotal, latestValue, sortByTimestamp, collectAll, collectAsset, stableInsert,
      tsKey, List.foldl, Finset.sum_range_succ]
  have h2 := h ⟨10, 102⟩ (by rw [htot]; simp)
  dsimp only at h2
  rw [hnaive] at h2
  norm_num at h2
